import Mathlib

/-!
Verification of the graph-description builder and serializer of
`epydoc.docwriter.dotgraph` (file `src/epydoc/docwriter/dotgraph.py`).

The Python module is shallowly embedded: attribute dictionaries become
association lists, Python byte strings become `String`/`List Char`, the
process-wide uid registry becomes an explicitly threaded list, the
regular expressions of `link` become deterministic character scanners,
and the external `dot` subprocess becomes an oracle function supplied by
the caller.  All definitions are executable.
-/

/-! ### Character classes (Python 2 ASCII regex semantics) -/

/-- Python regex word character for byte strings: `[a-zA-Z0-9_]`. -/
def isWordChar (c : Char) : Bool :=
  (('a' ≤ c) && (c ≤ 'z')) || (('A' ≤ c) && (c ≤ 'Z')) ||
  (('0' ≤ c) && (c ≤ '9')) || (c = '_')

/-- Python regex whitespace for byte strings: space, tab, newline,
carriage return, vertical tab, form feed. -/
def isSpaceChar (c : Char) : Bool :=
  (c = ' ') || (c = '\t') || (c = '\n') || (c = '\r') ||
  (c = '\x0b') || (c = '\x0c')

/-- A single or double quote, as in the character class of the `href`
pattern in `DotGraph.link`. -/
def isQuoteChar (c : Char) : Bool :=
  (c = '"') || (c = Char.ofNat 39)

/-- A character of the captured group `[\w\.]` of the `href` patterns. -/
def isNameChar (c : Char) : Bool := isWordChar c || (c = '.')

/-- ASCII lowercasing of one character, as `str.lower` does per byte. -/
def asciiLower (c : Char) : Char :=
  if ('A' ≤ c) && (c ≤ 'Z') then Char.ofNat (c.toNat + 32) else c

/-! ### Decimal rendering of naturals (the `%s`/`%d` conversions) -/

/-- Decimal digits of `n`, least significant first (fuel-structured so
that the kernel can evaluate it; `natDigitsRev` supplies enough fuel). -/
def natDigitsRevAux : Nat → Nat → List Nat
  | 0, n => [n]
  | fuel+1, n => if n < 10 then [n] else (n % 10) :: natDigitsRevAux fuel (n / 10)

/-- Decimal digits of `n`, least significant first. -/
def natDigitsRev (n : Nat) : List Nat := natDigitsRevAux n n

/-- One decimal digit as a character. -/
def digitChar : Nat → Char
  | 0 => '0' | 1 => '1' | 2 => '2' | 3 => '3' | 4 => '4'
  | 5 => '5' | 6 => '6' | 7 => '7' | 8 => '8' | _ => '9'

/-- Decimal rendering of a natural number, most significant digit
first, as the Python `%s` and `%d` conversions produce for a
nonnegative integer. -/
def natStr (n : Nat) : String := String.mk (((natDigitsRev n).reverse).map digitChar)

/-- Value of a least-significant-first digit list. -/
def unDigitsRev : List Nat → Nat
  | [] => 0
  | d :: ds => d + 10 * unDigitsRev ds

theorem unDigitsRev_natDigitsRevAux : ∀ fuel n : Nat, n ≤ fuel →
    unDigitsRev (natDigitsRevAux fuel n) = n := by
  intro fuel
  induction fuel with
  | zero =>
    intro n h
    have hn : n = 0 := by omega
    subst hn
    simp [natDigitsRevAux, unDigitsRev]
  | succ f ih =>
    intro n h
    rw [natDigitsRevAux]
    split
    · simp [unDigitsRev]
    · next hn =>
      have hd : n / 10 < n := Nat.div_lt_self (by omega) (by omega)
      rw [unDigitsRev, ih (n / 10) (by omega)]
      omega

theorem unDigitsRev_natDigitsRev : ∀ n : Nat, unDigitsRev (natDigitsRev n) = n :=
  fun n => unDigitsRev_natDigitsRevAux n n (Nat.le_refl n)

theorem natDigitsRevAux_lt_ten : ∀ fuel n : Nat, n ≤ fuel → ∀ d ∈ natDigitsRevAux fuel n, d < 10 := by
  intro fuel
  induction fuel with
  | zero =>
    intro n h d hd
    have hn : n = 0 := by omega
    subst hn
    simp only [natDigitsRevAux, List.mem_singleton] at hd
    omega
  | succ f ih =>
    intro n h d hd
    rw [natDigitsRevAux] at hd
    split at hd
    · simp only [List.mem_singleton] at hd
      omega
    · next hn =>
      rcases List.mem_cons.mp hd with h1 | h1
      · omega
      · have hlt : n / 10 < n := Nat.div_lt_self (by omega) (by omega)
        exact ih (n / 10) (by omega) d h1

theorem natDigitsRev_lt_ten : ∀ n : Nat, ∀ d ∈ natDigitsRev n, d < 10 :=
  fun n => natDigitsRevAux_lt_ten n n (Nat.le_refl n)

theorem digitChar_inj (x y : Nat) (hx : x < 10) (hy : y < 10)
    (h : digitChar x = digitChar y) : x = y := by
  interval_cases x <;> interval_cases y <;> first | rfl | (exact absurd h (by decide))

theorem map_digitChar_inj : ∀ xs ys : List Nat, (∀ x ∈ xs, x < 10) → (∀ y ∈ ys, y < 10) →
    xs.map digitChar = ys.map digitChar → xs = ys := by
  intro xs
  induction xs with
  | nil => intro ys _ _ h; cases ys <;> simp_all
  | cons x xs ih =>
    intro ys hxs hys h
    cases ys with
    | nil => simp_all
    | cons y ys =>
      simp only [List.map_cons, List.cons.injEq] at h
      have hx : x = y := digitChar_inj x y (hxs x (by simp)) (hys y (by simp)) h.1
      have : xs = ys := ih ys (fun a ha => hxs a (by simp [ha])) (fun a ha => hys a (by simp [ha])) h.2
      simp [hx, this]

theorem natStr_inj (a b : Nat) (h : natStr a = natStr b) : a = b := by
  have hd : ((natDigitsRev a).reverse).map digitChar = ((natDigitsRev b).reverse).map digitChar := by
    have := congrArg String.data h
    simpa [natStr] using this
  have hrev : (natDigitsRev a).reverse = (natDigitsRev b).reverse :=
    map_digitChar_inj _ _ (fun x hx => natDigitsRev_lt_ten a x (List.mem_reverse.mp hx))
      (fun y hy => natDigitsRev_lt_ten b y (List.mem_reverse.mp hy)) hd
  have : natDigitsRev a = natDigitsRev b := List.reverse_injective hrev
  calc a = unDigitsRev (natDigitsRev a) := (unDigitsRev_natDigitsRev a).symm
    _ = unDigitsRev (natDigitsRev b) := by rw [this]
    _ = b := unDigitsRev_natDigitsRev b

/-! ### Graph uids (`DotGraph.__init__`, lines 95-105)

The process-wide registry `DotGraph._uids` is threaded explicitly as a
list of already issued uids. -/

/-- `re.sub(r'\W', '_', title)`: replace every non-word character by an
underscore. -/
def pyWsub (s : String) : String :=
  String.mk (s.data.map (fun c => if isWordChar c then c else '_'))

/-- `str.lower` (ASCII). -/
def pyLower (s : String) : String := String.mk (s.data.map asciiLower)

/-- The base uid of a graph title: `re.sub(r'\W', '_', title).lower()`. -/
def uidBase (title : String) : String := pyLower (pyWsub title)

/-- The candidate uid with numeric suffix `n`, Python
`'%s_%s' % (uid, n)`. -/
def uidCand (base : String) (n : Nat) : String := base ++ "_" ++ natStr n

/-- The loop `while ('%s_%s' % (self.uid, n)) in self._uids: n += 1`,
with enough fuel to be total.  Returns the first `n` at or after the
start value whose candidate is not yet issued. -/
def suffixSearch (base : String) (issued : List String) : Nat → Nat → Nat
  | 0, n => n
  | fuel+1, n => if uidCand base n ∈ issued then suffixSearch base issued fuel (n+1) else n

/-- Uid computation of `DotGraph.__init__`: the base uid derived from
the title, disambiguated against the registry of previously issued uids
by appending `_2`, `_3`, ... when needed. -/
def mkUid (title : String) (issued : List String) : String :=
  let base := uidBase title
  if base ∈ issued then
    uidCand base (suffixSearch base issued (issued.length + 1) 2)
  else base

/-- Uids issued by a sequence of `DotGraph` constructions in one
process, in order: each construction checks the registry of all
previously issued uids and then registers its own. -/
def buildUids (titles : List String) : List String :=
  titles.foldl (fun issued t => issued ++ [mkUid t issued]) []

theorem uidCand_inj (base : String) (n m : Nat) (h : uidCand base n = uidCand base m) :
    n = m := by
  have hd := congrArg String.data h
  simp only [uidCand, String.data_append, List.append_assoc] at hd
  have h2 : (natStr n).data = (natStr m).data :=
    List.append_cancel_left (List.append_cancel_left hd)
  apply natStr_inj n m
  cases hn : natStr n
  cases hm : natStr m
  simp_all

theorem suffixSearch_not_mem (base : String) (issued : List String) :
    ∀ fuel n, (∃ k, k < fuel ∧ uidCand base (n + k) ∉ issued) →
    uidCand base (suffixSearch base issued fuel n) ∉ issued := by
  intro fuel
  induction fuel with
  | zero =>
    intro n h
    obtain ⟨k, hk, _⟩ := h
    omega
  | succ f ih =>
    intro n h
    obtain ⟨k, hk, hmem⟩ := h
    rw [suffixSearch]
    split
    · next hin =>
      apply ih
      have hk0 : k ≠ 0 := by
        intro h0
        subst h0
        exact hmem hin
      refine ⟨k - 1, by omega, ?_⟩
      have : n + 1 + (k - 1) = n + k := by omega
      rw [this]
      exact hmem
    · next hin => exact hin

theorem exists_free_cand (base : String) (issued : List String) :
    ∃ k, k < issued.length + 1 ∧ uidCand base (2 + k) ∉ issued := by
  by_contra hall
  push_neg at hall
  have hsub : ((List.range (issued.length + 1)).map (fun k => uidCand base (2 + k))) ⊆ issued := by
    intro s hs
    obtain ⟨k, hk, rfl⟩ := List.mem_map.mp hs
    exact hall k (List.mem_range.mp hk)
  have hnd : ((List.range (issued.length + 1)).map (fun k => uidCand base (2 + k))).Nodup := by
    refine List.Nodup.map ?_ (List.nodup_range _)
    intro a b hab
    have := uidCand_inj base (2 + a) (2 + b) hab
    omega
  have hle := (hnd.subperm hsub).length_le
  simp at hle

theorem mkUid_not_mem (title : String) (issued : List String) :
    mkUid title issued ∉ issued := by
  rw [mkUid]
  split
  · exact suffixSearch_not_mem _ _ _ _ (exists_free_cand (uidBase title) issued)
  · next h => exact h

theorem buildUids_nodup_aux (titles : List String) :
    ∀ acc : List String, acc.Nodup →
    (titles.foldl (fun issued t => issued ++ [mkUid t issued]) acc).Nodup := by
  induction titles with
  | nil => intro acc h; exact h
  | cons t ts ih =>
    intro acc hacc
    simp only [List.foldl_cons]
    apply ih
    rw [List.nodup_append]
    refine ⟨hacc, List.nodup_singleton _, ?_⟩
    intro a ha hb
    simp only [List.mem_singleton] at hb
    subst hb
    exact mkUid_not_mem t acc ha

/-- C1: all graphs constructed in one process have pairwise distinct
uids; the uid is the title with non-word characters replaced by an
underscore, lowercased, and on collision with an already issued uid the
suffixes `_2`, `_3`, ... are tried until an unused one is found. -/
theorem dotgraph_uids_pairwise_distinct :
    (∀ titles : List String, (buildUids titles).Nodup) ∧
    buildUids (["My Graph!", "My Graph!"]) = ["my_graph_", "my_graph__2"] := by
  constructor
  · intro titles
    exact buildUids_nodup_aux titles [] List.nodup_nil
  · decide

/-! ### Attribute dictionaries

Python dict with string keys and values, embedded as an association
list with unique keys; assignment keeps the position of an existing
key, deletion removes it. -/

/-- `attribs[k]`, as an option (`k in attribs` is `isSome`). -/
def dictGet (k : String) : List (String × String) → Option String
  | [] => none
  | (k2, v) :: rest => if k2 = k then some v else dictGet k rest

/-- `attribs[k] = v`. -/
def dictSet (k v : String) : List (String × String) → List (String × String)
  | [] => [(k, v)]
  | (k2, v2) :: rest => if k2 = k then (k, v) :: rest else (k2, v2) :: dictSet k v rest

/-- `del attribs[k]`. -/
def dictDel (k : String) : List (String × String) → List (String × String)
  | [] => []
  | (k2, v2) :: rest => if k2 = k then rest else (k2, v2) :: dictDel k rest

/-! ### The graph data model (`DotGraphNode`, `DotGraphEdge`, `DotGraph`) -/

/-- A node of a dot graph: a process-unique numeric identifier and an
attribute dictionary (a `label` argument is stored under the key
`label`). -/
structure DotGraphNode where
  id : Nat
  attribs : List (String × String)
deriving DecidableEq

/-- An edge of a dot graph: start node, end node and an attribute
dictionary. -/
structure DotGraphEdge where
  start : DotGraphNode
  stop : DotGraphNode
  attribs : List (String × String)
deriving DecidableEq

/-- A dot graph: title, derived uid, nodes, edges, default attribute
dictionaries for nodes and edges, and a raw body fragment. -/
structure DotGraph where
  title : String
  uid : String
  nodes : List DotGraphNode
  edges : List DotGraphEdge
  node_defaults : List (String × String)
  edge_defaults : List (String × String)
  body : String
deriving DecidableEq

/-- `DotGraph.__init__`: store the inputs, start with no nodes and no
edges, and derive the uid against the registry of issued uids. -/
def dotGraphNew (title body : String) (node_defaults edge_defaults : List (String × String))
    (issued : List String) : DotGraph :=
  { title := title, uid := mkUid title issued, nodes := [], edges := [],
    node_defaults := node_defaults, edge_defaults := edge_defaults, body := body }

/-! ### Serialization (`to_dotfile`, lines 187-206) -/

/-- Python `sep.join(strings)`. -/
def pyJoin (sep : String) : List String → String
  | [] => ""
  | [x] => x
  | x :: xs => x ++ sep ++ pyJoin sep xs

/-- `','.join(['%s="%s"' % (k,v) for (k,v) in attribs.items()])`. -/
def attribsStr (d : List (String × String)) : String :=
  pyJoin (",") (d.map (fun kv => kv.1 ++ "=\"" ++ kv.2 ++ "\""))

/-- `DotGraphNode.to_dotfile`. -/
def nodeToDotfile (n : DotGraphNode) : String :=
  let a := attribsStr n.attribs
  "node" ++ natStr n.id ++ (if a.isEmpty then "" else " [" ++ a ++ "]")

/-- `DotGraphEdge.to_dotfile`. -/
def edgeToDotfile (e : DotGraphEdge) : String :=
  let a := attribsStr e.attribs
  "node" ++ natStr e.start.id ++ " -> node" ++ natStr e.stop.id ++
    (if a.isEmpty then "" else " [" ++ a ++ "]")

/-- `DotGraph.to_dotfile`: header, default-attribute lines, body (when
non-empty), node section, edge section, closing brace, joined by
newlines. -/
def to_dotfile (g : DotGraph) : String :=
  pyJoin ("\n")
    (["digraph " ++ g.uid ++ " \x7b",
      "node [" ++ attribsStr g.node_defaults ++ "]",
      "edge [" ++ attribsStr g.edge_defaults ++ "]"]
     ++ (if g.body.isEmpty then [] else [g.body])
     ++ ["/* Nodes */"] ++ g.nodes.map nodeToDotfile
     ++ ["/* Edges */"] ++ g.edges.map edgeToDotfile
     ++ ["\x7d"])

/-! ### Link resolution (`DotGraph.link` / `DotGraph._link_href`)

Two Python regexes are embedded as deterministic character scanners.
The attribute regex is `^<([\w\.]+)>$` under `re.match` (so the dollar
also matches just before one trailing newline).  The body regex is
`href\s*=\s*['\"]?<([\w\.]+)>['\"]?\s*(,?)` under `re.sub`; none of its
constructs needs backtracking, so a greedy left-to-right scanner is
equivalent. -/

/-- `re.match(r'^<([\w\.]+)>$', v)`: the captured name, when `v` is an
href placeholder (the dollar of `re.match` also accepts one trailing
newline). -/
def parsePlaceholder : List Char → Option (List Char)
  | [] => none
  | c :: rest =>
    if c = '<' then
      let name := rest.takeWhile isNameChar
      match rest.dropWhile isNameChar with
      | '>' :: tail =>
        if name.isEmpty then none
        else if tail = [] ∨ tail = ['\n'] then some name else none
      | _ => none
    else none

/-- `DotGraph._link_href`: when the `href` attribute is a placeholder
`<name>`, replace it by the url the resolver returns for `name`, or
delete it when the resolver returns nothing (Python falsiness: `None`
or the empty string). -/
def linkHref (r : String → Option String) (attribs : List (String × String)) :
    List (String × String) :=
  match dictGet ("href") attribs with
  | none => attribs
  | some v =>
    match parsePlaceholder v.data with
    | none => attribs
    | some name =>
      match r (String.mk name) with
      | some url => if url.isEmpty then dictDel ("href") attribs
                    else dictSet ("href") url attribs
      | none => dictDel ("href") attribs

/-- Scanner state for the body regex
`href\s*=\s*['\"]?<([\w\.]+)>['\"]?\s*(,?)`: the four literal
characters, the part around `=`, the optional quote before `<`, the
captured name, and the optional trailing quote/whitespace/comma. -/
inductive Ph where
  | h0 | h1 | h2 | h3
  | preEq | postEq | needLt | name0
  | inName (acc : List Char)
  | postGt (acc : List Char)
  | trailSp (acc : List Char)
deriving DecidableEq

/-- Result of one scanner step on one character. -/
inductive StepR where
  | toPhase (ph : Ph)
  | fail
  | doneConsume (name : List Char) (comma : Bool)
  | doneKeep (name : List Char) (comma : Bool)
deriving DecidableEq

/-- One step of the body-regex scanner. -/
def step : Ph → Char → StepR
  | .h0, c => if c = 'h' then .toPhase .h1 else .fail
  | .h1, c => if c = 'r' then .toPhase .h2 else .fail
  | .h2, c => if c = 'e' then .toPhase .h3 else .fail
  | .h3, c => if c = 'f' then .toPhase .preEq else .fail
  | .preEq, c => if isSpaceChar c then .toPhase .preEq
                 else if c = '=' then .toPhase .postEq else .fail
  | .postEq, c => if isSpaceChar c then .toPhase .postEq
                  else if isQuoteChar c then .toPhase .needLt
                  else if c = '<' then .toPhase .name0 else .fail
  | .needLt, c => if c = '<' then .toPhase .name0 else .fail
  | .name0, c => if isNameChar c then .toPhase (.inName [c]) else .fail
  | .inName acc, c => if isNameChar c then .toPhase (.inName (acc ++ [c]))
                      else if c = '>' then .toPhase (.postGt acc) else .fail
  | .postGt acc, c => if isQuoteChar c then .toPhase (.trailSp acc)
                      else if isSpaceChar c then .toPhase (.trailSp acc)
                      else if c = ',' then .doneConsume acc true
                      else .doneKeep acc false
  | .trailSp acc, c => if isSpaceChar c then .toPhase (.trailSp acc)
                       else if c = ',' then .doneConsume acc true
                       else .doneKeep acc false

/-- Scanner result at the end of the input: the phases after the
closing `>` have matched everything mandatory, all others fail. -/
def finish : Ph → Option (List Char × Bool × List Char)
  | .postGt acc => some (acc, false, [])
  | .trailSp acc => some (acc, false, [])
  | _ => none

/-- Run the body-regex scanner; on success, return the captured name,
whether the optional comma was matched, and the unconsumed rest. -/
def scan : Ph → List Char → Option (List Char × Bool × List Char)
  | ph, [] => finish ph
  | ph, c :: cs =>
    match step ph c with
    | .toPhase ph2 => scan ph2 cs
    | .fail => none
    | .doneConsume name comma => some (name, comma, cs)
    | .doneKeep name comma => some (name, comma, c :: cs)

/-- The replacement `subfunc` of `DotGraph.link` produces for one body
match: `'href="%s"%s' % (url, comma)` when the resolver yields a truthy
url, the empty string otherwise. -/
def replFor (r : String → Option String) (name : List Char) (comma : Bool) : List Char :=
  match r (String.mk name) with
  | some url =>
    if url.isEmpty then []
    else ('h' :: 'r' :: 'e' :: 'f' :: '=' :: '"' :: url.data) ++ '"' :: (if comma then [','] else [])
  | none => []

/-- `re.sub` over the body: find the leftmost match, replace it,
continue after it (fuel-structured; `substAll` supplies enough fuel). -/
def substAllAux (r : String → Option String) : Nat → List Char → List Char
  | _, [] => []
  | 0, l => l
  | fuel+1, c :: cs =>
    match scan .h0 (c :: cs) with
    | some (name, comma, rest) => replFor r name comma ++ substAllAux r fuel rest
    | none => c :: substAllAux r fuel cs

/-- `re.sub("href\\s*=\\s*['\"]?<([\\w\\.]+)>['\"]?\\s*(,?)", subfunc, body)`. -/
def substAll (r : String → Option String) (l : List Char) : List Char :=
  substAllAux r l.length l

/-- Whether some suffix of `l` starts a match of the body regex. -/
def hasMatch : List Char → Bool
  | [] => false
  | c :: cs => (scan .h0 (c :: cs)).isSome || hasMatch cs

/-- `DotGraph.link`: resolve placeholders in the node defaults, in each
node attribute dictionary, in the edge defaults, and in the body.  The
second `linkHref` application to each node mirrors the second loop of
the source, which reads `for edge in self.nodes` and therefore visits
the node attribute dictionaries again instead of the edges. -/
def link (r : String → Option String) (g : DotGraph) : DotGraph :=
  { g with
    node_defaults := linkHref r g.node_defaults,
    nodes := g.nodes.map (fun n => { n with attribs := linkHref r (linkHref r n.attribs) }),
    edge_defaults := linkHref r g.edge_defaults,
    body := String.mk (substAll r g.body.data) }

theorem scan_rest_length : ∀ (s : List Char) (ph : Ph) (n : List Char) (b : Bool)
    (rest : List Char), scan ph s = some (n, b, rest) → rest.length ≤ s.length := by
  intro s
  induction s with
  | nil =>
    intro ph n b rest h
    cases ph <;> simp only [scan, finish] at h <;> simp_all
  | cons c cs ih =>
    intro ph n b rest h
    rw [scan] at h
    cases hst : step ph c <;> rw [hst] at h
    · next ph2 =>
      have := ih ph2 n b rest h
      simp only [List.length_cons]
      omega
    · exact absurd h (by simp)
    · simp only [Option.some.injEq, Prod.mk.injEq] at h
      obtain ⟨_, _, h3⟩ := h
      subst h3
      simp
    · simp only [Option.some.injEq, Prod.mk.injEq] at h
      obtain ⟨_, _, h3⟩ := h
      subst h3
      simp

theorem scan_h0_rest_lt (c : Char) (cs : List Char) (n : List Char) (b : Bool)
    (rest : List Char) (h : scan .h0 (c :: cs) = some (n, b, rest)) :
    rest.length < (c :: cs).length := by
  rw [scan] at h
  cases hc : (c = 'h' : Bool) with
  | true =>
    have hc2 : c = 'h' := by simpa using hc
    rw [step, if_pos hc2] at h
    have := scan_rest_length cs .h1 n b rest h
    simp only [List.length_cons]
    omega
  | false =>
    have hc2 : ¬ c = 'h' := by simpa using hc
    rw [step, if_neg hc2] at h
    exact absurd h (by simp)

theorem substAllAux_fuel_irrel (r : String → Option String) :
    ∀ (fuel1 fuel2 : Nat) (l : List Char), l.length ≤ fuel1 → l.length ≤ fuel2 →
    substAllAux r fuel1 l = substAllAux r fuel2 l := by
  intro fuel1
  induction fuel1 with
  | zero =>
    intro fuel2 l h1 _
    have : l = [] := by cases l <;> simp_all
    subst this
    cases fuel2 <;> rfl
  | succ f1 ih =>
    intro fuel2 l h1 h2
    cases l with
    | nil => cases fuel2 <;> rfl
    | cons c cs =>
      cases fuel2 with
      | zero => simp at h2
      | succ f2 =>
        rw [substAllAux, substAllAux]
        cases hscan : scan .h0 (c :: cs) with
        | some v =>
          obtain ⟨nm, b, rest⟩ := v
          have hrest := scan_h0_rest_lt c cs nm b rest hscan
          simp only [List.length_cons] at hrest h1 h2
          dsimp only
          rw [ih f2 rest (by omega) (by omega)]
        | none =>
          simp only [List.length_cons] at h1 h2
          dsimp only
          rw [ih f2 cs (by omega) (by omega)]

theorem substAll_cons_some (r : String → Option String) (c : Char) (cs : List Char)
    (n : List Char) (b : Bool) (rest : List Char) (h : scan .h0 (c :: cs) = some (n, b, rest)) :
    substAll r (c :: cs) = replFor r n b ++ substAll r rest := by
  have hrest := scan_h0_rest_lt c cs n b rest h
  simp only [List.length_cons] at hrest
  rw [substAll, substAll, List.length_cons, substAllAux, h]
  dsimp only
  rw [substAllAux_fuel_irrel r cs.length rest.length rest (by omega) (by omega)]

theorem substAll_cons_none (r : String → Option String) (c : Char) (cs : List Char)
    (h : scan .h0 (c :: cs) = none) :
    substAll r (c :: cs) = c :: substAll r cs := by
  rw [substAll, substAll, List.length_cons, substAllAux, h]

/-- C3: `link` rewrites the node defaults, each node attribute
dictionary (twice, because the second loop of the source iterates over
`self.nodes` again), and the edge defaults, but never an edge attribute
dictionary: the edges of the graph are untouched. -/
theorem link_never_visits_edge_attribs :
    ∀ (r : String → Option String) (g : DotGraph),
    (link r g).edges = g.edges ∧
    (link r g).node_defaults = linkHref r g.node_defaults ∧
    (link r g).nodes =
      g.nodes.map (fun n => { n with attribs := linkHref r (linkHref r n.attribs) }) ∧
    (link r g).edge_defaults = linkHref r g.edge_defaults := by
  intro r g
  exact ⟨rfl, rfl, rfl, rfl⟩

/-! ### Serialization of an empty graph (C8) -/

/-- Split a character list at newlines (Python `str.split('\n')`). -/
def splitOnNL : List Char → List (List Char)
  | [] => [[]]
  | c :: cs =>
    let r := splitOnNL cs
    if c = '\n' then [] :: r
    else match r with
      | [] => [[c]]
      | x :: xs => (c :: x) :: xs

/-- A graph with no nodes, no edges and an empty body, built by the
constructor in a fresh process. -/
def emptyGraphExample : DotGraph :=
  dotGraphNew ("Empty Graph") ("") [("shape", "box")] [("sametail", "True")] []

/-- C8 counterexample: the serialization of an empty graph is not just
a header line, the two default-attribute lines and the closing marker;
it also contains the two section-marker comment lines. -/
theorem to_dotfile_empty_counterexample :
    splitOnNL (to_dotfile emptyGraphExample).data ≠
      [("digraph empty_graph \x7b").data,
       ("node [shape=\"box\"]").data,
       ("edge [sametail=\"True\"]").data,
       ("\x7d").data] ∧
    splitOnNL (to_dotfile emptyGraphExample).data =
      [("digraph empty_graph \x7b").data,
       ("node [shape=\"box\"]").data,
       ("edge [sametail=\"True\"]").data,
       ("/* Nodes */").data,
       ("/* Edges */").data,
       ("\x7d").data] := by
  constructor
  · decide
  · decide

/-- C8 amended: serializing a graph with zero nodes, zero edges and an
empty body yields exactly the header line naming the graph by its uid,
one default-node-attribute line, one default-edge-attribute line, the
two section-marker comment lines, and the closing marker, with no node
lines and no edge lines. -/
theorem to_dotfile_empty_graph (t u : String) (nd ed : List (String × String)) :
    to_dotfile { title := t, uid := u, nodes := [], edges := [],
                 node_defaults := nd, edge_defaults := ed, body := "" } =
      "digraph " ++ u ++ " \x7b" ++ "\n" ++
      ("node [" ++ attribsStr nd ++ "]") ++ "\n" ++
      ("edge [" ++ attribsStr ed ++ "]") ++ "\n" ++
      "/* Nodes */" ++ "\n" ++ "/* Edges */" ++ "\n" ++ "\x7d" := by
  simp [to_dotfile, pyJoin, String.append_assoc]

/-! ### Rendering (`DotGraph.render`, lines 154-185)

The `dot` subprocess is an oracle mapping the output-format argument
and the text fed on stdin to an exit status and the full stdout text
(the read loop of the source accumulates stdout until the child
exits). -/

/-- `DotGraph.render`: feed the dot file to the subprocess; on nonzero
exit status log a warning and return `None`, otherwise return the
accumulated stdout. -/
def render (dot : String → String → Nat × String) (language : String) (g : DotGraph) :
    Option String :=
  let res := dot language (to_dotfile g)
  if res.1 ≠ 0 then none else some res.2

/-- C2: rendering with a subprocess that exits nonzero yields an absent
result (and, the embedding being a total function into `Option`, no
exception); with exit status zero it yields exactly the text the
subprocess wrote to its output channel. -/
theorem render_exit_behavior :
    ∀ (dot : String → String → Nat × String) (language : String) (g : DotGraph),
    ((dot language (to_dotfile g)).1 ≠ 0 → render dot language g = none) ∧
    ((dot language (to_dotfile g)).1 = 0 →
      render dot language g = some (dot language (to_dotfile g)).2) := by
  intro dot language g
  constructor
  · intro h
    simp [render, h]
  · intro h
    simp [render, h]

/-- Witness for C2 at a failing and a succeeding concrete renderer. -/
theorem render_exit_behavior_witness :
    render (fun _ _ => (1, "")) ("gif") emptyGraphExample = none ∧
    render (fun _ s => (0, "IMG:" ++ s)) ("gif") emptyGraphExample =
      some ("IMG:" ++ to_dotfile emptyGraphExample) := by
  constructor
  · exact (render_exit_behavior (fun _ _ => (1, "")) ("gif") emptyGraphExample).1 (by decide)
  · exact (render_exit_behavior (fun _ s => (0, "IMG:" ++ s)) ("gif") emptyGraphExample).2 rfl

/-! ### Writing to a file (`DotGraph.write`, lines 139-152)

The source runs `out = open(filename, 'w'); out.write(s); out.close()`
with no `try`/`finally` and no `with` block.  The effects on the file
system are modelled explicitly: `open` creates or truncates the file,
the OS-level write may raise an I/O error (oracle `writeOk`), and
`close` runs only on the straight-line path after a successful write. -/

/-- What one `DotGraph.write` call hands back to the caller: a normal
return value, or an exception propagating out of the call. -/
inductive WriteRet where
  | ok (b : Bool)
  | exn
deriving DecidableEq

/-- Observable outcome of one `DotGraph.write` call: the returned
value, the content of the target file afterwards (`none` when the file
was never created), and whether the file handle was closed. -/
structure WriteEffect where
  returned : WriteRet
  fileContent : Option String
  handleClosed : Bool
deriving DecidableEq

/-- `DotGraph.write`: render, and when rendering succeeded, open the
file (create/truncate), write the result and close.  A failing write
raises after the truncation, skipping the `close` call. -/
def write (dot : String → String → Nat × String) (language : String) (g : DotGraph)
    (writeOk : Bool) : WriteEffect :=
  match render dot language g with
  | some s =>
    if writeOk then { returned := .ok true, fileContent := some s, handleClosed := true }
    else { returned := .exn, fileContent := some (""), handleClosed := false }
  | none => { returned := .ok false, fileContent := none, handleClosed := true }

/-- C9 counterexample: when the OS-level write fails, the exception
propagates and the file handle is not closed, so the handle is not
closed on all exit paths as claimed. -/
theorem write_counterexample :
    (write (fun _ s => (0, s)) ("gif") emptyGraphExample false).handleClosed = false ∧
    (write (fun _ s => (0, s)) ("gif") emptyGraphExample false).returned = .exn := by
  constructor
  · decide
  · decide

/-- C9 amended: `write` calls `render` and returns whether rendering
succeeded; on rendering failure it returns `False` without creating or
writing the file; on rendering success it creates the file and, when
the OS-level write succeeds, writes the rendered text and closes the
handle — but when the OS-level write fails, the exception propagates
and the handle is left open. -/
theorem write_behavior :
    ∀ (dot : String → String → Nat × String) (language : String) (g : DotGraph)
    (writeOk : Bool),
    (render dot language g = none →
      write dot language g writeOk =
        { returned := .ok false, fileContent := none, handleClosed := true }) ∧
    (∀ s, render dot language g = some s → writeOk = true →
      write dot language g writeOk =
        { returned := .ok true, fileContent := some s, handleClosed := true }) ∧
    (∀ s, render dot language g = some s → writeOk = false →
      write dot language g writeOk =
        { returned := .exn, fileContent := some (""), handleClosed := false }) := by
  intro dot language g writeOk
  refine ⟨?_, ?_, ?_⟩
  · intro h
    simp [write, h]
  · intro s h hok
    subst hok
    simp [write, h]
  · intro s h hok
    subst hok
    simp [write, h]

/-- Witness for C9 at concrete renderers and write outcomes. -/
theorem write_behavior_witness :
    write (fun _ _ => (1, "")) ("gif") emptyGraphExample true =
      { returned := .ok false, fileContent := none, handleClosed := true } ∧
    write (fun _ s => (0, s)) ("gif") emptyGraphExample true =
      { returned := .ok true, fileContent := some (to_dotfile emptyGraphExample),
        handleClosed := true } := by
  constructor
  · exact (write_behavior (fun _ _ => (1, "")) ("gif") emptyGraphExample true).1 (by decide)
  · exact (write_behavior (fun _ s => (0, s)) ("gif") emptyGraphExample true).2.1
      (to_dotfile emptyGraphExample) rfl rfl

/-! ### Idempotence analysis of `link` (C4) -/

/-- Whether a character list begins with the four literal characters of
`href`. -/
def startsWithHref : List Char → Bool
  | a :: b :: c :: d :: _ => (a = 'h') && (b = 'r') && (c = 'e') && (d = 'f')
  | _ => false

/-- Whether some suffix begins with the literal `href`. -/
def hasHrefSub : List Char → Bool
  | [] => false
  | c :: cs => startsWithHref (c :: cs) || hasHrefSub cs

/-- The head, when present, is not the opening `<` of a placeholder. -/
def headNotLt : List Char → Bool
  | [] => true
  | c :: _ => c ≠ '<'

/-- A url is clean when it is non-empty (truthy), contains no `<`, and
contains no literal `href`. -/
def cleanUrl (u : String) : Prop :=
  u ≠ "" ∧ ('<' ∉ u.data) ∧ hasHrefSub u.data = false

/-- A resolver that yields a clean url for every name. -/
def cleanResolver (r : String → Option String) : Prop :=
  ∀ n, ∃ u, r n = some u ∧ cleanUrl u

/-- Whether the `href` entry of an attribute dictionary is an
unresolved placeholder. -/
def hasPh (d : List (String × String)) : Bool :=
  match dictGet ("href") d with
  | some v => (parsePlaceholder v.data).isSome
  | none => false

@[simp] theorem step_h0_h : step .h0 'h' = .toPhase .h1 := rfl
@[simp] theorem step_h1_r : step .h1 'r' = .toPhase .h2 := rfl
@[simp] theorem step_h2_e : step .h2 'e' = .toPhase .h3 := rfl
@[simp] theorem step_h3_f : step .h3 'f' = .toPhase .preEq := rfl
@[simp] theorem step_preEq_eq : step .preEq '=' = .toPhase .postEq := rfl
@[simp] theorem step_postEq_quote : step .postEq '"' = .toPhase .needLt := rfl
@[simp] theorem step_h1_h : step .h1 'h' = .fail := rfl
@[simp] theorem step_h2_h : step .h2 'h' = .fail := rfl
@[simp] theorem step_h3_h : step .h3 'h' = .fail := rfl
@[simp] theorem step_preEq_h : step .preEq 'h' = .fail := rfl
@[simp] theorem step_postEq_h : step .postEq 'h' = .fail := rfl
@[simp] theorem step_needLt_h : step .needLt 'h' = .fail := rfl
@[simp] theorem step_name0_h : step .name0 'h' = .toPhase (.inName ['h']) := rfl
@[simp] theorem step_inName_h (acc : List Char) :
    step (.inName acc) 'h' = .toPhase (.inName (acc ++ ['h'])) := rfl
@[simp] theorem step_inName_r (acc : List Char) :
    step (.inName acc) 'r' = .toPhase (.inName (acc ++ ['r'])) := rfl
@[simp] theorem step_inName_e (acc : List Char) :
    step (.inName acc) 'e' = .toPhase (.inName (acc ++ ['e'])) := rfl
@[simp] theorem step_inName_f (acc : List Char) :
    step (.inName acc) 'f' = .toPhase (.inName (acc ++ ['f'])) := rfl
@[simp] theorem step_inName_eqsign (acc : List Char) : step (.inName acc) '=' = .fail := rfl
@[simp] theorem step_postGt_h (acc : List Char) :
    step (.postGt acc) 'h' = .doneKeep acc false := rfl
@[simp] theorem step_trailSp_h (acc : List Char) :
    step (.trailSp acc) 'h' = .doneKeep acc false := rfl

theorem step_needLt_ne (c : Char) (h : ¬ c = '<') : step .needLt c = .fail := by
  rw [step, if_neg h]

theorem step_h0_ne (c : Char) (h : ¬ c = 'h') : step .h0 c = .fail := by
  rw [step, if_neg h]

theorem scan_h0_some_shape : ∀ (l : List Char) (v : List Char × Bool × List Char),
    scan .h0 l = some v → ∃ m, l = 'h' :: 'r' :: 'e' :: 'f' :: m := by
  intro l v h
  match l with
  | [] => exact absurd h (by simp [scan, finish])
  | a :: l1 =>
    rw [scan] at h
    by_cases ha : a = 'h'
    · subst ha
      rw [step_h0_h] at h
      dsimp only at h
      match l1 with
      | [] => exact absurd h (by simp [scan, finish])
      | b :: l2 =>
        rw [scan] at h
        by_cases hb : b = 'r'
        · subst hb
          rw [step_h1_r] at h
          dsimp only at h
          match l2 with
          | [] => exact absurd h (by simp [scan, finish])
          | c :: l3 =>
            rw [scan] at h
            by_cases hc : c = 'e'
            · subst hc
              rw [step_h2_e] at h
              dsimp only at h
              match l3 with
              | [] => exact absurd h (by simp [scan, finish])
              | d :: l4 =>
                rw [scan] at h
                by_cases hd : d = 'f'
                · subst hd
                  exact ⟨l4, rfl⟩
                · rw [step, if_neg hd] at h
                  exact absurd h (by simp)
            · rw [step, if_neg hc] at h
              exact absurd h (by simp)
        · rw [step, if_neg hb] at h
          exact absurd h (by simp)
    · rw [step_h0_ne a ha] at h
      exact absurd h (by simp)

theorem scan_h0_none_of_not_href (l : List Char) (h : startsWithHref l = false) :
    scan .h0 l = none := by
  cases hs : scan .h0 l with
  | none => rfl
  | some v =>
    obtain ⟨m, rfl⟩ := scan_h0_some_shape l v hs
    simp [startsWithHref] at h

theorem scan_agree : ∀ (g : List Char) (ph : Ph) (m w : List Char),
    headNotLt w = true →
    scan ph (g ++ 'h' :: 'r' :: 'e' :: 'f' :: m) = none →
    scan ph (g ++ 'h' :: 'r' :: 'e' :: 'f' :: '=' :: '"' :: w) = none := by
  intro g
  induction g with
  | nil =>
    intro ph m w hw hnone
    simp only [List.nil_append] at hnone ⊢
    cases ph with
    | h0 =>
      rw [scan, step_h0_h]
      dsimp only
      rw [scan, step_h1_r]
      dsimp only
      rw [scan, step_h2_e]
      dsimp only
      rw [scan, step_h3_f]
      dsimp only
      rw [scan, step_preEq_eq]
      dsimp only
      rw [scan, step_postEq_quote]
      dsimp only
      cases w with
      | nil => rfl
      | cons c w2 =>
        have hc : ¬ c = '<' := by simpa [headNotLt] using hw
        rw [scan, step_needLt_ne c hc]
    | h1 => rw [scan, step_h1_h]
    | h2 => rw [scan, step_h2_h]
    | h3 => rw [scan, step_h3_h]
    | preEq => rw [scan, step_preEq_h]
    | postEq => rw [scan, step_postEq_h]
    | needLt => rw [scan, step_needLt_h]
    | name0 =>
      rw [scan, step_name0_h]
      dsimp only
      rw [scan, step_inName_r]
      dsimp only
      rw [scan, step_inName_e]
      dsimp only
      rw [scan, step_inName_f]
      dsimp only
      rw [scan, step_inName_eqsign]
    | inName acc =>
      rw [scan, step_inName_h]
      dsimp only
      rw [scan, step_inName_r]
      dsimp only
      rw [scan, step_inName_e]
      dsimp only
      rw [scan, step_inName_f]
      dsimp only
      rw [scan, step_inName_eqsign]
    | postGt acc =>
      rw [scan, step_postGt_h] at hnone
      exact absurd hnone (by simp)
    | trailSp acc =>
      rw [scan, step_trailSp_h] at hnone
      exact absurd hnone (by simp)
  | cons a g2 ih =>
    intro ph m w hw hnone
    simp only [List.cons_append] at hnone ⊢
    rw [scan] at hnone ⊢
    cases hst : step ph a with
    | toPhase ph2 =>
      rw [hst] at hnone
      dsimp only at hnone
      dsimp only
      exact ih ph2 m w hw hnone
    | fail => rfl
    | doneConsume nm cm =>
      rw [hst] at hnone
      exact absurd hnone (by simp)
    | doneKeep nm cm =>
      rw [hst] at hnone
      exact absurd hnone (by simp)

theorem scan_h0_cons_ne (c : Char) (rest : List Char) (h : ¬ c = 'h') :
    scan .h0 (c :: rest) = none := by
  rw [scan, step_h0_ne c h]

theorem startsWithHref_true_iff (l : List Char) :
    startsWithHref l = true ↔ ∃ m, l = 'h' :: 'r' :: 'e' :: 'f' :: m := by
  constructor
  · intro h
    match l with
    | [] => exact absurd h (by decide)
    | [a] => exact absurd h (by simp [startsWithHref])
    | [a, b] => exact absurd h (by simp [startsWithHref])
    | [a, b, c] => exact absurd h (by simp [startsWithHref])
    | a :: b :: c :: d :: rest =>
      simp only [startsWithHref, Bool.and_eq_true, decide_eq_true_eq] at h
      obtain ⟨⟨⟨ha, hb⟩, hc⟩, hd⟩ := h
      exact ⟨rest, by rw [ha, hb, hc, hd]⟩
  · intro h
    obtain ⟨m, rfl⟩ := h
    simp [startsWithHref]

theorem startsWithHref_append_quote (d : List Char) (tail : List Char)
    (hd : startsWithHref d = false) : startsWithHref (d ++ '"' :: tail) = false := by
  by_contra hcon
  rw [Bool.not_eq_false, startsWithHref_true_iff] at hcon
  obtain ⟨m, hm⟩ := hcon
  match d with
  | [] =>
    simp only [List.nil_append, List.cons.injEq] at hm
    exact absurd hm.1 (by decide)
  | [a] =>
    simp only [List.cons_append, List.nil_append, List.cons.injEq] at hm
    exact absurd hm.2.1 (by decide)
  | [a, b] =>
    simp only [List.cons_append, List.nil_append, List.cons.injEq] at hm
    exact absurd hm.2.2.1 (by decide)
  | [a, b, c] =>
    simp only [List.cons_append, List.nil_append, List.cons.injEq] at hm
    exact absurd hm.2.2.2.1 (by decide)
  | a :: b :: c :: e :: d2 =>
    simp only [List.cons_append, List.cons.injEq] at hm
    rw [startsWithHref, hm.1, hm.2.1, hm.2.2.1, hm.2.2.2.1] at hd
    simp at hd

theorem hasMatch_append_quote_of_nohref (u : List Char) (tail : List Char)
    (hu : hasHrefSub u = false) (htail : hasMatch ('"' :: tail) = false) :
    hasMatch (u ++ '"' :: tail) = false := by
  induction u with
  | nil => simpa using htail
  | cons a u2 ih =>
    rw [hasHrefSub, Bool.or_eq_false_iff] at hu
    have h1 : startsWithHref ((a :: u2) ++ '"' :: tail) = false :=
      startsWithHref_append_quote _ _ hu.1
    rw [List.cons_append] at h1 ⊢
    rw [hasMatch]
    have h2 := scan_h0_none_of_not_href _ h1
    simp [h2, ih hu.2]

theorem hasMatch_repl (u : String) (hu : cleanUrl u) (comma : Bool) (T : List Char)
    (hT : hasMatch T = false) :
    hasMatch (('h' :: 'r' :: 'e' :: 'f' :: '=' :: '"' :: u.data) ++
      '"' :: ((if comma then [','] else []) ++ T)) = false := by
  obtain ⟨hne, hlt, hhref⟩ := hu
  simp only [List.cons_append]
  have hp0 : scan .h0 ('h' :: 'r' :: 'e' :: 'f' :: '=' :: '"' ::
      (u.data ++ '"' :: ((if comma then [','] else []) ++ T))) = none := by
    rw [scan, step_h0_h]
    dsimp only
    rw [scan, step_h1_r]
    dsimp only
    rw [scan, step_h2_e]
    dsimp only
    rw [scan, step_h3_f]
    dsimp only
    rw [scan, step_preEq_eq]
    dsimp only
    rw [scan, step_postEq_quote]
    dsimp only
    cases hud : u.data with
    | nil =>
      simp only [List.nil_append]
      rw [scan, step_needLt_ne _ (by decide)]
    | cons c u2 =>
      have hc : ¬ c = '<' := by
        intro h
        subst h
        exact hlt (by rw [hud]; exact List.mem_cons_self _ _)
      rw [List.cons_append, scan, step_needLt_ne c hc]
  have hcomma : hasMatch ((if comma then [','] else []) ++ T) = false := by
    cases comma with
    | true =>
      simp only [if_pos, List.cons_append, List.nil_append]
      rw [hasMatch]
      simp [scan_h0_cons_ne ',' T (by decide), hT]
    | false => simpa using hT
  have htail : hasMatch ('"' :: ((if comma then [','] else []) ++ T)) = false := by
    rw [hasMatch]
    simp [scan_h0_cons_ne _ _ (by decide : ¬ ('"' : Char) = 'h'), hcomma]
  have hmid : hasMatch (u.data ++ '"' :: ((if comma then [','] else []) ++ T)) = false :=
    hasMatch_append_quote_of_nohref u.data _ hhref htail
  rw [hasMatch]
  rw [hasMatch]
  rw [hasMatch]
  rw [hasMatch]
  rw [hasMatch]
  rw [hasMatch]
  simp [hp0, scan_h0_cons_ne 'r' _ (by decide), scan_h0_cons_ne 'e' _ (by decide),
    scan_h0_cons_ne 'f' _ (by decide), scan_h0_cons_ne '=' _ (by decide),
    scan_h0_cons_ne '"' _ (by decide), hmid]

theorem string_data_nil (u : String) (h : u.data = []) : u = "" := by
  cases u
  simp_all

theorem replFor_clean (r : String → Option String) (name : List Char) (comma : Bool)
    (u : String) (hru : r (String.mk name) = some u) (hu : cleanUrl u) :
    replFor r name comma =
      'h' :: 'r' :: 'e' :: 'f' :: '=' :: '"' ::
        (u.data ++ '"' :: (if comma then [','] else [])) := by
  rw [replFor, hru]
  have hne : u.isEmpty = false := by
    cases he : u.isEmpty
    · rfl
    · exact absurd ((String.isEmpty_iff u).mp he) hu.1
  simp only [hne, Bool.false_eq_true, if_false, List.cons_append]

theorem headNotLt_clean (u : String) (hu : cleanUrl u) (z : List Char) :
    headNotLt (u.data ++ z) = true := by
  cases hud : u.data with
  | nil => exact absurd (string_data_nil u hud) hu.1
  | cons c u2 =>
    have hc : ¬ c = '<' := by
      intro h
      subst h
      exact hu.2.1 (by rw [hud]; exact List.mem_cons_self _ _)
    simp [headNotLt, hc]

theorem substAll_decomp (r : String → Option String) (hr : cleanResolver r) :
    ∀ (N : Nat) (s : List Char), s.length ≤ N →
    substAll r s = s ∨
    ∃ g m w, s = g ++ 'h' :: 'r' :: 'e' :: 'f' :: m ∧
      substAll r s = g ++ 'h' :: 'r' :: 'e' :: 'f' :: '=' :: '"' :: w ∧
      headNotLt w = true := by
  intro N
  induction N with
  | zero =>
    intro s hs
    have : s = [] := by cases s <;> simp_all
    subst this
    left
    rfl
  | succ N ih =>
    intro s hs
    cases s with
    | nil => left; rfl
    | cons c cs =>
      cases hscan : scan .h0 (c :: cs) with
      | some v =>
        obtain ⟨nm, b, rest⟩ := v
        right
        obtain ⟨m, hshape⟩ := scan_h0_some_shape (c :: cs) (nm, b, rest) hscan
        obtain ⟨u, hru, hu⟩ := hr (String.mk nm)
        have hsub := substAll_cons_some r c cs nm b rest hscan
        rw [replFor_clean r nm b u hru hu] at hsub
        refine ⟨[], m, u.data ++ '"' :: ((if b then [','] else []) ++ substAll r rest),
          by simpa using hshape, ?_, headNotLt_clean u hu _⟩
        simp only [List.nil_append]
        rw [hsub]
        simp [List.append_assoc]
      | none =>
        have hsub := substAll_cons_none r c cs hscan
        rcases ih cs (by simp at hs; omega) with h | h
        · left
          rw [hsub, h]
        · right
          obtain ⟨g, m, w, hcs, hscs, hw⟩ := h
          exact ⟨c :: g, m, w, by rw [List.cons_append, hcs],
            by rw [hsub, hscs, List.cons_append], hw⟩

theorem hasMatch_substAll (r : String → Option String) (hr : cleanResolver r) :
    ∀ (N : Nat) (s : List Char), s.length ≤ N → hasMatch (substAll r s) = false := by
  intro N
  induction N with
  | zero =>
    intro s hs
    have : s = [] := by cases s <;> simp_all
    subst this
    rfl
  | succ N ih =>
    intro s hs
    cases s with
    | nil => rfl
    | cons c cs =>
      cases hscan : scan .h0 (c :: cs) with
      | some v =>
        obtain ⟨nm, b, rest⟩ := v
        obtain ⟨u, hru, hu⟩ := hr (String.mk nm)
        have hres := scan_h0_rest_lt c cs nm b rest hscan
        have hT : hasMatch (substAll r rest) = false := by
          apply ih
          simp only [List.length_cons] at hres hs
          omega
        rw [substAll_cons_some r c cs nm b rest hscan, replFor_clean r nm b u hru hu]
        have := hasMatch_repl u hu b (substAll r rest) hT
        simpa [List.append_assoc] using this
      | none =>
        rw [substAll_cons_none r c cs hscan]
        have hX : hasMatch (substAll r cs) = false := by
          apply ih
          simp only [List.length_cons] at hs
          omega
        rw [hasMatch]
        have hscan2 : scan .h0 (c :: substAll r cs) = none := by
          rcases substAll_decomp r hr cs.length cs (Nat.le_refl _) with h | h
          · rw [h]
            exact hscan
          · obtain ⟨g, m, w, hcs, hscs, hw⟩ := h
            rw [hscs]
            have hlhs : scan .h0 ((c :: g) ++ 'h' :: 'r' :: 'e' :: 'f' :: m) = none := by
              rw [List.cons_append, ← hcs]
              exact hscan
            have := scan_agree (c :: g) .h0 m w hw hlhs
            rw [List.cons_append] at this
            exact this
        simp [hscan2, hX]

theorem substAll_eq_self_of_no_match (r : String → Option String) :
    ∀ (l : List Char), hasMatch l = false → substAll r l = l := by
  intro l
  induction l with
  | nil => intro _; rfl
  | cons c cs ih =>
    intro h
    rw [hasMatch, Bool.or_eq_false_iff] at h
    have hscan : scan .h0 (c :: cs) = none := by
      cases hs : scan .h0 (c :: cs)
      · rfl
      · rw [hs] at h
        simp at h
    rw [substAll_cons_none r c cs hscan, ih h.2]

/-- Under a clean total resolver, one `re.sub` pass leaves no match, so
a second pass is the identity. -/
theorem substAll_idem (r : String → Option String) (hr : cleanResolver r) (l : List Char) :
    substAll r (substAll r l) = substAll r l :=
  substAll_eq_self_of_no_match r _ (hasMatch_substAll r hr l.length l (Nat.le_refl _))

theorem dictGet_dictSet_self (k v : String) : ∀ d, dictGet k (dictSet k v d) = some v := by
  intro d
  induction d with
  | nil => simp [dictSet, dictGet]
  | cons kv rest ih =>
    obtain ⟨k2, v2⟩ := kv
    rw [dictSet]
    by_cases hk : k2 = k
    · rw [if_pos hk, dictGet, if_pos rfl]
    · rw [if_neg hk, dictGet, if_neg hk]
      exact ih

theorem parsePlaceholder_clean_none (u : String) (hu : cleanUrl u) :
    parsePlaceholder u.data = none := by
  cases hud : u.data with
  | nil => rfl
  | cons c rest =>
    have hc : ¬ c = '<' := by
      intro h
      subst h
      exact hu.2.1 (by rw [hud]; exact List.mem_cons_self _ _)
    rw [parsePlaceholder, if_neg hc]

theorem linkHref_of_dictGet_none (r : String → Option String) (d : List (String × String))
    (hg : dictGet ("href") d = none) : linkHref r d = d := by
  rw [linkHref, hg]

theorem linkHref_of_no_placeholder (r : String → Option String) (d : List (String × String))
    (v : String) (hg : dictGet ("href") d = some v) (hp : parsePlaceholder v.data = none) :
    linkHref r d = d := by
  rw [linkHref, hg]
  dsimp only
  rw [hp]

theorem linkHref_of_placeholder_clean (r : String → Option String)
    (d : List (String × String)) (v : String) (name : List Char) (u : String)
    (hg : dictGet ("href") d = some v) (hp : parsePlaceholder v.data = some name)
    (hru : r (String.mk name) = some u) (hu : cleanUrl u) :
    linkHref r d = dictSet ("href") u d := by
  rw [linkHref, hg]
  dsimp only
  rw [hp]
  dsimp only
  rw [hru]
  have hne : u.isEmpty = false := by
    cases he : u.isEmpty
    · rfl
    · exact absurd ((String.isEmpty_iff u).mp he) hu.1
  simp [hne]

theorem linkHref_idem (r : String → Option String) (hr : cleanResolver r)
    (d : List (String × String)) : linkHref r (linkHref r d) = linkHref r d := by
  cases hg : dictGet ("href") d with
  | none =>
    have h1 := linkHref_of_dictGet_none r d hg
    rw [h1]
    exact h1
  | some v =>
    cases hp : parsePlaceholder v.data with
    | none =>
      have h1 := linkHref_of_no_placeholder r d v hg hp
      rw [h1]
      exact h1
    | some name =>
      obtain ⟨u, hru, hu⟩ := hr (String.mk name)
      have h1 := linkHref_of_placeholder_clean r d v name u hg hp hru hu
      rw [h1]
      exact linkHref_of_no_placeholder r _ u (dictGet_dictSet_self _ u d)
        (parsePlaceholder_clean_none u hu)

theorem hasPh_linkHref (r : String → Option String) (hr : cleanResolver r)
    (d : List (String × String)) : hasPh (linkHref r d) = false := by
  cases hg : dictGet ("href") d with
  | none =>
    rw [linkHref_of_dictGet_none r d hg, hasPh, hg]
  | some v =>
    cases hp : parsePlaceholder v.data with
    | none =>
      rw [linkHref_of_no_placeholder r d v hg hp, hasPh, hg]
      dsimp only
      rw [hp]
      rfl
    | some name =>
      obtain ⟨u, hru, hu⟩ := hr (String.mk name)
      rw [linkHref_of_placeholder_clean r d v name u hg hp hru hu, hasPh,
        dictGet_dictSet_self]
      dsimp only
      rw [parsePlaceholder_clean_none u hu]
      rfl

/-- Resolver for the C4 counterexample: a chain of placeholder-shaped
urls plus one unresolvable name. -/
def rC4 : String → Option String := fun n =>
  if n = "a" then some ("<b>")
  else if n = "b" then some ("<c>")
  else if n = "c" then some ("x")
  else if n = "e" then some ("y")
  else none

/-- Node with a placeholder href for the C4 counterexample. -/
def nodeC4 : DotGraphNode := { id := 0, attribs := [("href", "<a>")] }

/-- Edge with a placeholder href for the C4 counterexample. -/
def edgeC4 : DotGraphEdge := { start := nodeC4, stop := nodeC4, attribs := [("href", "<k>")] }

/-- Graph for the C4 counterexample. -/
def graphC4 : DotGraph :=
  { title := "G", uid := "g", nodes := [nodeC4], edges := [edgeC4],
    node_defaults := [], edge_defaults := [], body := "href=href=\"<d>\",<e>" }

/-- C4 counterexample: one `link` call does not remove the placeholder
stored on an edge, and `link` composed with itself differs from `link`
(here both through the node attribute chain of placeholder-shaped urls
and through the body, where an unresolvable placeholder is deleted and
its removal splices a new placeholder pattern together). -/
theorem link_not_idempotent_counterexample :
    (∃ e ∈ (link rC4 graphC4).edges, hasPh e.attribs = true) ∧
    link rC4 (link rC4 graphC4) ≠ link rC4 graphC4 := by
  constructor
  · decide
  · decide

/-- C4 amended: `link` removes or replaces every placeholder in the
node defaults, the node attribute dictionaries, the edge defaults and
the body — but not on the edges themselves — and is idempotent,
provided the resolver yields for every name a url that is non-empty,
contains no `<`, and contains no literal `href`.  (The counterexample
shows both restrictions are needed: edge placeholders are never
resolved, and resolver failures or placeholder-shaped urls break
idempotence.) -/
theorem link_idempotent_of_clean_resolver :
    ∀ (r : String → Option String), cleanResolver r → ∀ g : DotGraph,
    link r (link r g) = link r g ∧
    hasPh ((link r g).node_defaults) = false ∧
    (∀ n ∈ (link r g).nodes, hasPh n.attribs = false) ∧
    hasPh ((link r g).edge_defaults) = false ∧
    hasMatch ((link r g).body).data = false ∧
    (link r g).edges = g.edges := by
  intro r hr g
  have h2 : ∀ x, linkHref r (linkHref r x) = linkHref r x := linkHref_idem r hr
  refine ⟨?_, ?_, ?_, ?_, ?_, rfl⟩
  · cases g with
    | mk t u ns es nd ed b =>
      simp only [link]
      congr 1
      · rw [List.map_map]
        apply List.map_congr_left
        intro n _
        cases n with
        | mk i a =>
          simp only [Function.comp]
          congr 1
          rw [h2 (linkHref r (linkHref r a)), h2 (linkHref r a)]
      · exact h2 nd
      · exact h2 ed
      · exact congrArg String.mk (substAll_idem r hr b.data)
  · exact hasPh_linkHref r hr g.node_defaults
  · intro n hn
    simp only [link, List.mem_map] at hn
    obtain ⟨n0, _, rfl⟩ := hn
    exact hasPh_linkHref r hr _
  · exact hasPh_linkHref r hr g.edge_defaults
  · exact hasMatch_substAll r hr _ _ (Nat.le_refl _)

/-- A concrete clean resolver. -/
def rClean : String → Option String := fun _ => some ("u")

/-- Witness for the amended C4 theorem at a concrete resolver and
graph. -/
theorem link_idempotent_of_clean_resolver_witness :
    link rClean (link rClean graphC4) = link rClean graphC4 ∧
    hasPh ((link rClean graphC4).node_defaults) = false ∧
    (∀ n ∈ (link rClean graphC4).nodes, hasPh n.attribs = false) ∧
    hasPh ((link rClean graphC4).edge_defaults) = false ∧
    hasMatch ((link rClean graphC4).body).data = false ∧
    (link rClean graphC4).edges = graphC4.edges :=
  link_idempotent_of_clean_resolver rClean (fun _ => ⟨"u", rfl, by decide, by decide, by decide⟩) graphC4

/-! ### Graph builder functions (lines 249-350)

The object model consumed by the builders is abstracted: entities of
type `α` expose a canonical dotted name, submodule / subclass children,
recorded import names, and a doc-index lookup with a ModuleDoc test.
The comparison of canonical names used by `sorted` lives outside this
excerpt (`DottedName` of `epydoc.apidoc`); it is modelled from the
spec, which says nodes are sorted by canonical dotted name. -/

/-- The collaborator interfaces the builders consume. -/
structure ApiModel (α : Type) where
  canonicalName : α → List String
  submodules : α → List α
  subclasses : α → List α
  imports : α → List (List String)
  getValdoc : List String → Option α
  isModule : α → Bool

/-- `Set.add`: append when not yet present. -/
def insertNew {α : Type} [DecidableEq α] (acc : List α) (x : α) : List α :=
  if x ∈ acc then acc else acc ++ [x]

/-- `Set.update`: add each element. -/
def insertAll {α : Type} [DecidableEq α] (acc : List α) (xs : List α) : List α :=
  xs.foldl insertNew acc

/-- The queue loop shared by `package_tree_graph` and
`class_tree_graph`:

    queue = list(roots); collected = Set(roots)
    for x in queue:
        queue.extend(children(x)); collected.update(children(x))

The source extends the queue unconditionally, so the loop need not
terminate; fuel counts loop iterations and `none` reports exhaustion. -/
def crawl {α : Type} [DecidableEq α] (children : α → List α) :
    Nat → List α → Nat → List α → Option (List α)
  | fuel, queue, i, collected =>
    if h : i < queue.length then
      match fuel with
      | 0 => none
      | f+1 =>
        crawl children f (queue ++ children queue[i]) (i+1)
          (insertAll collected (children queue[i]))
    else some collected

/-- Modelled from the spec: the ordering of canonical dotted names
(`DottedName` comparison, outside this excerpt) — lexicographic
comparison of the identifier lists. -/
def lexLeStr : List String → List String → Bool
  | [], _ => true
  | _ :: _, [] => false
  | a :: as, b :: bs => if a < b then true else if a = b then lexLeStr as bs else false

/-- `sorted(val_docs, key=lambda d: d.canonical_name)` (a stable sort). -/
def sortByName {α : Type} (cname : α → List String) (l : List α) : List α :=
  List.insertionSort (fun x y => lexLeStr (cname x) (cname y)) l

/-- The attribute dictionary given to the node of one entity: the label
is the dotted canonical name; the current context is highlighted,
otherwise an `href` is attached when the linker yields a truthy url. -/
def nodeAttribsFor {α : Type} [DecidableEq α] (m : ApiModel α) (linker : α → Option String)
    (context : Option α) (v : α) : List (String × String) :=
  let label := pyJoin (".") (m.canonicalName v)
  if context = some v then
    [("label", label), ("fillcolor", "black"), ("fontcolor", "white"), ("style", "filled")]
  else
    match linker v with
    | some url => if url.isEmpty then [("label", label)] else [("label", label), ("href", url)]
    | none => [("label", label)]

/-- The loop body of `add_valdoc_nodes`: one `DotGraphNode` per list
element, with consecutive ids (the threaded `_next_id` counter), keyed
by the entity for the `nodes` dictionary. -/
def mkNodePairs {α : Type} [DecidableEq α] (m : ApiModel α) (linker : α → Option String)
    (context : Option α) : List α → Nat → List (α × DotGraphNode)
  | [], _ => []
  | v :: vs, nid =>
    (v, { id := nid, attribs := nodeAttribsFor m linker context v }) ::
      mkNodePairs m linker context vs (nid + 1)

/-- `add_valdoc_nodes`: sort the entities by canonical name, create one
node per element, and return the (entity, node) association (the
`nodes` dictionary) together with the next free id. -/
def add_valdoc_nodes {α : Type} [DecidableEq α] (m : ApiModel α) (linker : α → Option String)
    (context : Option α) (vals : List α) (nextId : Nat) :
    List (α × DotGraphNode) × Nat :=
  let sorted := sortByName m.canonicalName vals
  (mkNodePairs m linker context sorted nextId, nextId + sorted.length)

/-- `nodes[k]`: Python dict lookup; repeated assignments keep the last
node stored under a key, hence the reversed search. -/
def lookupVal {α : Type} [DecidableEq α] (pairs : List (α × DotGraphNode)) (k : α) :
    Option DotGraphNode :=
  (pairs.reverse.find? (fun p => p.1 = k)).map (fun p => p.2)

/-- All parent/child pairs among the collected entities, in iteration
order of the two nested edge loops. -/
def allRelPairs {α : Type} (children : α → List α) (modules : List α) : List (α × α) :=
  modules.foldr (fun mo acc => ((children mo).map (fun sub => (mo, sub))) ++ acc) []

/-- The edge loop of the two tree builders: one edge per parent/child
pair, looking both endpoints up in the `nodes` dictionary (a missing
key would raise, reported as `none`). -/
def edgesFor {α : Type} [DecidableEq α] (pairs : List (α × DotGraphNode))
    (rels : List (α × α)) : Option (List DotGraphEdge) :=
  rels.foldr (fun p acc =>
    match lookupVal pairs p.1, lookupVal pairs p.2, acc with
    | some a, some b, some es => some ({ start := a, stop := b, attribs := [] } :: es)
    | _, _, _ => none) (some [])

/-- The rankdir option handling shared by the builders:
`if options.get('dir', default) != 'TB': body += 'rankdir=%s\n' % ...`. -/
def rankdirBody (dir : Option String) (dft : String) : String :=
  if (dir.getD dft) ≠ "TB" then "rankdir=" ++ (dir.getD dft) ++ "\n" else ""

/-- `package_tree_graph`. -/
def package_tree_graph {α : Type} [DecidableEq α] (m : ApiModel α) (fuel : Nat)
    (packages : List α) (linker : α → Option String) (context : Option α)
    (dir : Option String) (issued : List String) : Option DotGraph :=
  let g0 := dotGraphNew ("Package Tree") ("")
      [("shape", "box"), ("width", "0"), ("height", "0")] [("sametail", "True")] issued
  match crawl m.submodules fuel packages 0 (insertAll [] packages) with
  | none => none
  | some modules =>
    let np := add_valdoc_nodes m linker context modules 0
    match edgesFor np.1 (allRelPairs m.submodules modules) with
    | none => none
    | some edges =>
      some { g0 with
        body := g0.body ++ rankdirBody dir ("LR"),
        nodes := (np.1).map (fun p => p.2),
        edges := edges }

/-- `class_tree_graph`. -/
def class_tree_graph {α : Type} [DecidableEq α] (m : ApiModel α) (fuel : Nat)
    (bases : List α) (linker : α → Option String) (context : Option α)
    (dir : Option String) (issued : List String) : Option DotGraph :=
  let g0 := dotGraphNew ("Class Hierarchy") ("")
      [("shape", "box"), ("width", "0"), ("height", "0")] [("sametail", "True")] issued
  match crawl m.subclasses fuel bases 0 (insertAll [] bases) with
  | none => none
  | some classes =>
    let np := add_valdoc_nodes m linker context classes 0
    match edgesFor np.1 (allRelPairs m.subclasses classes) with
    | none => none
    | some edges =>
      some { g0 with
        body := g0.body ++ rankdirBody dir ("LR"),
        nodes := (np.1).map (fun p => p.2),
        edges := edges }

/-- The prefix loop of `import_graph`:
`for i in range(len(var_name), 0, -1)` — try the longest prefix first,
stop at the first prefix whose doc-index entry is a ModuleDoc. -/
def resolveImportAux {α : Type} (m : ApiModel α) (name : List String) : Nat → Option α
  | 0 => none
  | i+1 =>
    match m.getValdoc (name.take (i+1)) with
    | some v => if m.isModule v then some v else resolveImportAux m name i
    | none => resolveImportAux m name i

/-- The source module an import reference resolves to. -/
def resolveImportSrc {α : Type} (m : ApiModel α) (name : List String) : Option α :=
  resolveImportAux m name name.length

/-- One recorded import of `dst`: when its name resolves to a source
module, add the (source, destination) pair to the `edges` Set. -/
def importStep {α : Type} [DecidableEq α] (m : ApiModel α) (dst : α)
    (acc : List (α × α)) (nm : List String) : List (α × α) :=
  match resolveImportSrc m nm with
  | some src => insertNew acc (src, dst)
  | none => acc

/-- The `edges` Set of `import_graph`: one (source, destination) pair
per resolvable recorded import, deduplicated. -/
def importEdgePairs {α : Type} [DecidableEq α] (m : ApiModel α) (modules : List α) :
    List (α × α) :=
  modules.foldl (fun acc dst => (m.imports dst).foldl (importStep m dst) acc) []

/-- `import_graph`. -/
def import_graph {α : Type} [DecidableEq α] (m : ApiModel α) (modules : List α)
    (linker : α → Option String) (context : Option α) (dir : Option String)
    (issued : List String) : DotGraph :=
  let g0 := dotGraphNew ("Import Graph") ("")
      [("shape", "box"), ("width", "0"), ("height", "0")] [("sametail", "True")] issued
  let np := add_valdoc_nodes m linker context modules 0
  let edges := (importEdgePairs m modules).filterMap (fun p =>
    match lookupVal np.1 p.1, lookupVal np.1 p.2 with
    | some a, some b => some { start := a, stop := b, attribs := ([] : List (String × String)) }
    | _, _ => none)
  { g0 with
    body := g0.body ++ rankdirBody dir ("RL"),
    nodes := (np.1).map (fun p => p.2),
    edges := edges }

/-! ### Layout direction option (C7) -/

/-- Whether `l` begins with `pat`. -/
def startsWithL : List Char → List Char → Bool
  | _, [] => true
  | [], _ :: _ => false
  | c :: cs, p :: ps => (c = p) && startsWithL cs ps

/-- Whether `pat` occurs in `l`. -/
def containsL : List Char → List Char → Bool
  | [], pat => pat.isEmpty
  | c :: cs, pat => startsWithL (c :: cs) pat || containsL cs pat

/-- A one-entity object model with no relationships. -/
def mUnit : ApiModel Unit :=
  { canonicalName := fun _ => ["m"], submodules := fun _ => [], subclasses := fun _ => [],
    imports := fun _ => [], getValdoc := fun _ => none, isModule := fun _ => false }

/-- C7 counterexample: with the `dir` option left at the builder
default (left-to-right for the package tree, right-to-left for
the import graph), an explicit rankdir directive IS emitted in the body,
although the claim says none appears when the option equals the
builder default. -/
theorem rankdir_default_counterexample :
    (package_tree_graph mUnit 1 [()] (fun _ => none) none none []).map
      (fun g => containsL g.body.data ("rankdir").data) = some true ∧
    containsL (import_graph mUnit [()] (fun _ => none) none none []).body.data
      ("rankdir").data = true := by
  constructor
  · decide
  · decide

theorem string_ext_data (a b : String) (h : a.data = b.data) : a = b := by
  cases a
  cases b
  simp_all

theorem string_nil_append (s : String) : "" ++ s = s := by
  apply string_ext_data
  simp [String.data_append]

theorem rankdirBody_empty_iff (dir : Option String) (dft : String) (hd : ¬ dft = "TB") :
    rankdirBody dir dft = "" ↔ dir = some ("TB") := by
  cases dir with
  | none =>
    simp only [rankdirBody, Option.getD_none]
    rw [if_pos hd]
    constructor
    · intro h
      have := congrArg String.data h
      simp [String.data_append] at this
    · intro h
      cases h
  | some d =>
    simp only [rankdirBody, Option.getD_some]
    by_cases hdt : d = "TB"
    · subst hdt
      simp
    · rw [if_pos hdt]
      constructor
      · intro h
        have := congrArg String.data h
        simp [String.data_append] at this
      · intro h
        simp at h
        exact absurd h hdt

/-- C7 amended: each builder emits the rankdir directive exactly when
the effective `dir` option (defaulting to LR for the two tree builders
and RL for the import graph) differs from TB, the renderer's built-in
top-to-bottom default — so the directive is omitted only when the
caller passes `dir='TB'`, not when the option equals the builder's own
default. -/
theorem rankdir_emitted_iff_not_TB :
    ∀ {α : Type} [inst : DecidableEq α] (m : ApiModel α) (fuel : Nat) (roots : List α)
    (linker : α → Option String) (context : Option α) (dir : Option String)
    (issued : List String),
    (∀ g, package_tree_graph m fuel roots linker context dir issued = some g →
      g.body = rankdirBody dir ("LR")) ∧
    (∀ g, class_tree_graph m fuel roots linker context dir issued = some g →
      g.body = rankdirBody dir ("LR")) ∧
    (import_graph m roots linker context dir issued).body = rankdirBody dir ("RL") ∧
    (rankdirBody dir ("LR") = "" ↔ dir = some ("TB")) ∧
    (rankdirBody dir ("RL") = "" ↔ dir = some ("TB")) := by
  intro α inst m fuel roots linker context dir issued
  refine ⟨?_, ?_, ?_, rankdirBody_empty_iff dir ("LR") (by decide),
    rankdirBody_empty_iff dir ("RL") (by decide)⟩
  · intro g hg
    rw [package_tree_graph] at hg
    cases hc : crawl m.submodules fuel roots 0 (insertAll [] roots) with
    | none => rw [hc] at hg; exact absurd hg (by simp)
    | some modules =>
      rw [hc] at hg
      dsimp only at hg
      cases he : edgesFor (add_valdoc_nodes m linker context modules 0).1
          (allRelPairs m.submodules modules) with
      | none => rw [he] at hg; exact absurd hg (by simp)
      | some edges =>
        rw [he] at hg
        dsimp only at hg
        have := Option.some.inj hg
        rw [← this]
        exact string_nil_append _
  · intro g hg
    rw [class_tree_graph] at hg
    cases hc : crawl m.subclasses fuel roots 0 (insertAll [] roots) with
    | none => rw [hc] at hg; exact absurd hg (by simp)
    | some classes =>
      rw [hc] at hg
      dsimp only at hg
      cases he : edgesFor (add_valdoc_nodes m linker context classes 0).1
          (allRelPairs m.subclasses classes) with
      | none => rw [he] at hg; exact absurd hg (by simp)
      | some edges =>
        rw [he] at hg
        dsimp only at hg
        have := Option.some.inj hg
        rw [← this]
        exact string_nil_append _
  · exact string_nil_append _

/-! ### Longest-known-prefix resolution (C5) -/

theorem mem_insertNew {α : Type} [DecidableEq α] (acc : List α) (x a : α) :
    a ∈ insertNew acc x ↔ a ∈ acc ∨ a = x := by
  rw [insertNew]
  split
  · next hx =>
    constructor
    · intro h
      exact Or.inl h
    · intro h
      rcases h with h | rfl
      · exact h
      · exact hx
  · next hx => simp

theorem resolveImportAux_longest {α : Type} (m : ApiModel α) (name : List String) (i : Nat)
    (v : α) (hi1 : 1 ≤ i) (hv : m.getValdoc (name.take i) = some v)
    (hmod : m.isModule v = true)
    (hlong : ∀ j w, i < j → j ≤ name.length → m.getValdoc (name.take j) = some w →
      m.isModule w = false) :
    ∀ k, i ≤ k → k ≤ name.length → resolveImportAux m name k = some v := by
  intro k
  induction k with
  | zero =>
    intro h1 _
    omega
  | succ k ih =>
    intro hik hklen
    rw [resolveImportAux]
    by_cases hik2 : i = k + 1
    · subst hik2
      rw [hv]
      dsimp only
      rw [hmod]
      simp
    · have hlt : i < k + 1 := by omega
      cases hg : m.getValdoc (name.take (k+1)) with
      | none =>
        dsimp only
        exact ih (by omega) (by omega)
      | some w =>
        have hw := hlong (k+1) w hlt hklen hg
        dsimp only
        rw [hw]
        simp only [Bool.false_eq_true, if_false]
        exact ih (by omega) (by omega)

theorem foldl_importStep_mono {α : Type} [DecidableEq α] (m : ApiModel α) (dst : α)
    (imps : List (List String)) :
    ∀ (acc : List (α × α)) (a : α × α), a ∈ acc → a ∈ imps.foldl (importStep m dst) acc := by
  induction imps with
  | nil => intro acc a h; exact h
  | cons nm rest ih =>
    intro acc a h
    apply ih
    rw [importStep]
    cases resolveImportSrc m nm with
    | none => exact h
    | some src =>
      dsimp only
      exact (mem_insertNew acc (src, dst) a).mpr (Or.inl h)

theorem foldl_importStep_adds {α : Type} [DecidableEq α] (m : ApiModel α) (dst : α)
    (src : α) (nm : List String) (hres : resolveImportSrc m nm = some src) :
    ∀ (imps : List (List String)) (acc : List (α × α)), nm ∈ imps →
    (src, dst) ∈ imps.foldl (importStep m dst) acc := by
  intro imps
  induction imps with
  | nil => intro acc h; cases h
  | cons nm2 rest ih =>
    intro acc h
    rcases List.mem_cons.mp h with rfl | h2
    · simp only [List.foldl_cons]
      apply foldl_importStep_mono
      rw [importStep, hres]
      dsimp only
      exact (mem_insertNew acc (src, dst) (src, dst)).mpr (Or.inr rfl)
    · exact ih _ h2

theorem outer_fold_mono {α : Type} [DecidableEq α] (m : ApiModel α) (modules : List α) :
    ∀ (acc : List (α × α)) (a : α × α), a ∈ acc →
    a ∈ modules.foldl (fun acc dst => (m.imports dst).foldl (importStep m dst) acc) acc := by
  induction modules with
  | nil => intro acc a h; exact h
  | cons mo rest ih =>
    intro acc a h
    simp only [List.foldl_cons]
    exact ih _ a (foldl_importStep_mono m mo (m.imports mo) acc a h)

theorem mem_importEdgePairs_of_resolve {α : Type} [DecidableEq α] (m : ApiModel α)
    (modules : List α) (dst src : α) (nm : List String)
    (hres : resolveImportSrc m nm = some src) (hdst : dst ∈ modules)
    (hnm : nm ∈ m.imports dst) : (src, dst) ∈ importEdgePairs m modules := by
  rw [importEdgePairs]
  have main : ∀ (mods : List α) (acc : List (α × α)), dst ∈ mods →
      (src, dst) ∈ mods.foldl (fun acc dst => (m.imports dst).foldl (importStep m dst) acc) acc := by
    intro mods
    induction mods with
    | nil => intro acc h; cases h
    | cons mo rest ih =>
      intro acc h
      rcases List.mem_cons.mp h with rfl | h2
      · simp only [List.foldl_cons]
        exact outer_fold_mono m rest _ _
          (foldl_importStep_adds m dst src nm hres (m.imports dst) acc hnm)
      · simp only [List.foldl_cons]
        exact ih _ h2
  exact main modules [] hdst

/-- C5: the source of an import edge is the longest prefix of the
recorded dotted name whose doc-index entry is a known module: when
prefix length `i` denotes module `v` and no longer prefix denotes a
module, the import resolves to `v`, and the (source, destination) pair
of the edge Set names `v` as the source. -/
theorem import_longest_prefix_wins :
    ∀ {α : Type} [inst : DecidableEq α] (m : ApiModel α) (modules : List α) (dst : α)
    (name : List String) (i : Nat) (v : α),
    1 ≤ i → i ≤ name.length →
    m.getValdoc (name.take i) = some v → m.isModule v = true →
    (∀ j w, i < j → j ≤ name.length → m.getValdoc (name.take j) = some w →
      m.isModule w = false) →
    dst ∈ modules → name ∈ m.imports dst →
    resolveImportSrc m name = some v ∧ (v, dst) ∈ importEdgePairs m modules := by
  intro α inst m modules dst name i v hi1 hilen hv hmod hlong hdst hnm
  have hres : resolveImportSrc m name = some v :=
    resolveImportAux_longest m name i v hi1 hv hmod hlong name.length hilen (Nat.le_refl _)
  exact ⟨hres, mem_importEdgePairs_of_resolve m modules dst v name hres hdst hnm⟩

/-- Object model for the C5 witness: the import reference a.b.c, where
only a.b is a known module (a.b.c and a are not in the doc index). -/
def mC5 : ApiModel Nat :=
  { canonicalName := fun x => if x = 7 then ["a", "b"] else ["z"],
    submodules := fun _ => [], subclasses := fun _ => [],
    imports := fun x => if x = 3 then [["a", "b", "c"]] else [],
    getValdoc := fun l => if l = ["a", "b"] then some 7 else none,
    isModule := fun x => x = 7 }

/-- Witness for C5: in `mC5`, the import a.b.c recorded in module 3
resolves to module 7 (= a.b), and the pair (7, 3) is in the edge Set. -/
theorem import_longest_prefix_wins_witness :
    resolveImportSrc mC5 ["a", "b", "c"] = some 7 ∧
    (7, 3) ∈ importEdgePairs mC5 [7, 3] := by
  have h := import_longest_prefix_wins mC5 [7, 3] 3 (["a", "b", "c"]) 2 7
    (by omega) (by decide)
    (by decide) (by decide)
    (by
      intro j w hj1 hj2 hw
      have hlen : (["a", "b", "c"] : List String).length = 3 := rfl
      have hj : j = 3 := by omega
      subst hj
      simp [mC5] at hw)
    (by decide) (by decide)
  exact h

/-! ### Import graph edge set (C10) -/

theorem nodup_insertNew {α : Type} [DecidableEq α] (acc : List α) (x : α) (h : acc.Nodup) :
    (insertNew acc x).Nodup := by
  rw [insertNew]
  split
  · exact h
  · next hx =>
    rw [List.nodup_append]
    refine ⟨h, List.nodup_singleton x, ?_⟩
    intro a ha hb
    simp only [List.mem_singleton] at hb
    subst hb
    exact hx ha

theorem nodup_foldl_importStep {α : Type} [DecidableEq α] (m : ApiModel α) (dst : α)
    (imps : List (List String)) :
    ∀ acc : List (α × α), acc.Nodup → (imps.foldl (importStep m dst) acc).Nodup := by
  induction imps with
  | nil => intro acc h; exact h
  | cons nm rest ih =>
    intro acc h
    simp only [List.foldl_cons]
    apply ih
    rw [importStep]
    cases resolveImportSrc m nm with
    | none => exact h
    | some src => exact nodup_insertNew acc (src, dst) h

theorem nodup_importEdgePairs {α : Type} [DecidableEq α] (m : ApiModel α)
    (modules : List α) : (importEdgePairs m modules).Nodup := by
  rw [importEdgePairs]
  have main : ∀ (mods : List α) (acc : List (α × α)), acc.Nodup →
      (mods.foldl (fun acc dst => (m.imports dst).foldl (importStep m dst) acc) acc).Nodup := by
    intro mods
    induction mods with
    | nil => intro acc h; exact h
    | cons mo rest ih =>
      intro acc h
      simp only [List.foldl_cons]
      exact ih _ (nodup_foldl_importStep m mo (m.imports mo) acc h)
  exact main modules [] List.nodup_nil

theorem mkNodePairs_id_ge {α : Type} [DecidableEq α] (m : ApiModel α)
    (linker : α → Option String) (context : Option α) :
    ∀ (vs : List α) (nid : Nat) (k : α) (nd : DotGraphNode),
    (k, nd) ∈ mkNodePairs m linker context vs nid → nid ≤ nd.id := by
  intro vs
  induction vs with
  | nil =>
    intro nid k nd h
    cases h
  | cons v vs ih =>
    intro nid k nd h
    rcases List.mem_cons.mp h with heq | h2
    · have : nd = { id := nid, attribs := nodeAttribsFor m linker context v } :=
        congrArg Prod.snd heq
      rw [this]
    · have := ih (nid + 1) k nd h2
      omega

theorem mkNodePairs_node_det_key {α : Type} [DecidableEq α] (m : ApiModel α)
    (linker : α → Option String) (context : Option α) :
    ∀ (vs : List α) (nid : Nat) (k1 k2 : α) (nd : DotGraphNode),
    (k1, nd) ∈ mkNodePairs m linker context vs nid →
    (k2, nd) ∈ mkNodePairs m linker context vs nid → k1 = k2 := by
  intro vs
  induction vs with
  | nil =>
    intro nid k1 k2 nd h1
    cases h1
  | cons v vs ih =>
    intro nid k1 k2 nd h1 h2
    rcases List.mem_cons.mp h1 with heq1 | h1t <;> rcases List.mem_cons.mp h2 with heq2 | h2t
    · have e1 : k1 = v := congrArg Prod.fst heq1
      have e2 : k2 = v := congrArg Prod.fst heq2
      rw [e1, e2]
    · have hid : nd.id = nid := by
        have : nd = { id := nid, attribs := nodeAttribsFor m linker context v } :=
          congrArg Prod.snd heq1
        rw [this]
      have := mkNodePairs_id_ge m linker context vs (nid + 1) k2 nd h2t
      omega
    · have hid : nd.id = nid := by
        have : nd = { id := nid, attribs := nodeAttribsFor m linker context v } :=
          congrArg Prod.snd heq2
        rw [this]
      have := mkNodePairs_id_ge m linker context vs (nid + 1) k1 nd h1t
      omega
    · exact ih (nid + 1) k1 k2 nd h1t h2t

theorem find?_pred_true {β : Type} (pr : β → Bool) :
    ∀ (l : List β) (b : β), l.find? pr = some b → pr b = true := by
  intro l
  induction l with
  | nil =>
    intro b h
    cases h
  | cons x xs ih =>
    intro b h
    rw [List.find?] at h
    cases hx : pr x with
    | true =>
      rw [hx] at h
      have : x = b := by simpa using h
      rw [← this]
      exact hx
    | false =>
      rw [hx] at h
      exact ih b h

theorem lookupVal_mem {α : Type} [DecidableEq α] (pairs : List (α × DotGraphNode)) (k : α)
    (nd : DotGraphNode) (h : lookupVal pairs k = some nd) : (k, nd) ∈ pairs := by
  rw [lookupVal] at h
  cases hf : pairs.reverse.find? (fun p => p.1 = k) with
  | none =>
    rw [hf] at h
    cases h
  | some p =>
    rw [hf] at h
    simp only [Option.map_some'] at h
    have hp := find?_pred_true (fun q => decide (q.1 = k)) pairs.reverse p hf
    have hk : p.1 = k := by simpa using hp
    have hm : p ∈ pairs.reverse := List.mem_of_find?_eq_some hf
    rw [List.mem_reverse] at hm
    have hpe : p = (k, nd) := by
      cases p with
      | mk a b =>
        simp only [Option.some.injEq] at h
        simp_all
    rw [← hpe]
    exact hm

theorem lookupVal_mkNodePairs_inj {α : Type} [DecidableEq α] (m : ApiModel α)
    (linker : α → Option String) (context : Option α) (vs : List α) (nid : Nat)
    (k1 k2 : α) (nd : DotGraphNode)
    (h1 : lookupVal (mkNodePairs m linker context vs nid) k1 = some nd)
    (h2 : lookupVal (mkNodePairs m linker context vs nid) k2 = some nd) : k1 = k2 :=
  mkNodePairs_node_det_key m linker context vs nid k1 k2 nd
    (lookupVal_mem _ k1 nd h1) (lookupVal_mem _ k2 nd h2)

theorem import_graph_edges_def {α : Type} [DecidableEq α] (m : ApiModel α)
    (modules : List α) (linker : α → Option String) (context : Option α)
    (dir : Option String) (issued : List String) :
    (import_graph m modules linker context dir issued).edges =
      (importEdgePairs m modules).filterMap (fun p =>
        match lookupVal (add_valdoc_nodes m linker context modules 0).1 p.1,
              lookupVal (add_valdoc_nodes m linker context modules 0).1 p.2 with
        | some a, some b =>
          some { start := a, stop := b, attribs := ([] : List (String × String)) }
        | _, _ => none) := rfl

theorem import_graph_nodes_def {α : Type} [DecidableEq α] (m : ApiModel α)
    (modules : List α) (linker : α → Option String) (context : Option α)
    (dir : Option String) (issued : List String) :
    (import_graph m modules linker context dir issued).nodes =
      ((add_valdoc_nodes m linker context modules 0).1).map (fun p => p.2) := rfl

/-- C10: the import graph adds at most one edge per (source,
destination) module pair — the edge Set is duplicate-free, and so are
the (start node, end node) pairs of the edges actually added — and
every added edge has both endpoints among the nodes of the graph. -/
theorem import_graph_edges_unique_and_closed :
    ∀ {α : Type} [inst : DecidableEq α] (m : ApiModel α) (modules : List α)
    (linker : α → Option String) (context : Option α) (dir : Option String)
    (issued : List String),
    (importEdgePairs m modules).Nodup ∧
    ((import_graph m modules linker context dir issued).edges.map
      (fun e => (e.start, e.stop))).Nodup ∧
    (∀ e ∈ (import_graph m modules linker context dir issued).edges,
      e.start ∈ (import_graph m modules linker context dir issued).nodes ∧
      e.stop ∈ (import_graph m modules linker context dir issued).nodes) := by
  intro α inst m modules linker context dir issued
  have hnp : (add_valdoc_nodes m linker context modules 0).1 =
      mkNodePairs m linker context (sortByName m.canonicalName modules) 0 := rfl
  refine ⟨nodup_importEdgePairs m modules, ?_, ?_⟩
  · rw [import_graph_edges_def, List.map_filterMap]
    apply List.Nodup.filterMap ?_ (nodup_importEdgePairs m modules)
    intro p1 p2 b hb1 hb2
    cases hl11 : lookupVal (add_valdoc_nodes m linker context modules 0).1 p1.1 with
    | none => rw [hl11] at hb1; simp at hb1
    | some na1 =>
      cases hl12 : lookupVal (add_valdoc_nodes m linker context modules 0).1 p1.2 with
      | none => rw [hl11, hl12] at hb1; simp at hb1
      | some nb1 =>
        cases hl21 : lookupVal (add_valdoc_nodes m linker context modules 0).1 p2.1 with
        | none => rw [hl21] at hb2; simp at hb2
        | some na2 =>
          cases hl22 : lookupVal (add_valdoc_nodes m linker context modules 0).1 p2.2 with
          | none => rw [hl21, hl22] at hb2; simp at hb2
          | some nb2 =>
            rw [hl11, hl12] at hb1
            rw [hl21, hl22] at hb2
            simp only [Option.map_some', Option.mem_def, Option.some.injEq] at hb1 hb2
            rw [← hb2] at hb1
            have hna : na1 = na2 := congrArg Prod.fst hb1
            have hnb : nb1 = nb2 := congrArg Prod.snd hb1
            subst hna
            subst hnb
            rw [hnp] at hl11 hl12 hl21 hl22
            have h1 := lookupVal_mkNodePairs_inj m linker context _ 0 p1.1 p2.1 na1 hl11 hl21
            have h2 := lookupVal_mkNodePairs_inj m linker context _ 0 p1.2 p2.2 nb1 hl12 hl22
            cases p1
            cases p2
            simp_all
  · intro e he
    rw [import_graph_edges_def] at he
    rw [List.mem_filterMap] at he
    obtain ⟨p, hp, hfp⟩ := he
    cases hl1 : lookupVal (add_valdoc_nodes m linker context modules 0).1 p.1 with
    | none => rw [hl1] at hfp; simp at hfp
    | some na =>
      cases hl2 : lookupVal (add_valdoc_nodes m linker context modules 0).1 p.2 with
      | none => rw [hl1, hl2] at hfp; simp at hfp
      | some nb =>
        rw [hl1, hl2] at hfp
        simp only [Option.some.injEq] at hfp
        rw [import_graph_nodes_def, ← hfp]
        constructor
        · exact List.mem_map.mpr ⟨(p.1, na), lookupVal_mem _ p.1 na hl1, rfl⟩
        · exact List.mem_map.mpr ⟨(p.2, nb), lookupVal_mem _ p.2 nb hl2, rfl⟩

/-- Witness for C10 at a concrete model in which one edge is added. -/
theorem import_graph_edges_unique_and_closed_witness :
    (importEdgePairs mC5 [7, 3]).Nodup ∧
    ((import_graph mC5 [7, 3] (fun _ => none) none none []).edges.map
      (fun e => (e.start, e.stop))).Nodup ∧
    (∀ e ∈ (import_graph mC5 [7, 3] (fun _ => none) none none []).edges,
      e.start ∈ (import_graph mC5 [7, 3] (fun _ => none) none none []).nodes ∧
      e.stop ∈ (import_graph mC5 [7, 3] (fun _ => none) none none []).nodes) :=
  import_graph_edges_unique_and_closed mC5 [7, 3] (fun _ => none) none none []

/-- Witness for the amended C7 theorem at a concrete model, with the
`dir` option left at its default. -/
theorem rankdir_emitted_iff_not_TB_witness :
    (package_tree_graph mUnit 1 [()] (fun _ => none) none none []).map
      (fun g => g.body) = some (rankdirBody none ("LR")) ∧
    (import_graph mUnit [()] (fun _ => none) none none []).body =
      rankdirBody none ("RL") := by
  have h := rankdir_emitted_iff_not_TB mUnit 1 [()] (fun _ => none) none none []
  constructor
  · cases hg : package_tree_graph mUnit 1 [()] (fun _ => none) none none [] with
    | none => exact absurd hg (by decide)
    | some g =>
      simp only [Option.map_some']
      rw [h.1 g hg]
  · exact h.2.2.1

/-! ### The queue loop on cyclic and acyclic models (C6) -/

/-- A two-module circular submodule relationship. -/
def cycChildren : Nat → List Nat := fun x =>
  if x = 0 then [1] else if x = 1 then [0] else []

/-- A one-package object model whose submodule relationship is the
two-module cycle. -/
def mCyc : ApiModel Nat :=
  { canonicalName := fun x => [natStr x], submodules := cycChildren,
    subclasses := fun _ => [], imports := fun _ => [],
    getValdoc := fun _ => none, isModule := fun _ => false }

theorem crawl_cyc_diverges : ∀ (fuel : Nat) (q : List Nat) (i : Nat) (coll : List Nat),
    q.length = i + 1 → (∀ x ∈ q, x = 0 ∨ x = 1) →
    crawl cycChildren fuel q i coll = none := by
  intro fuel
  induction fuel with
  | zero =>
    intro q i coll hlen hmem
    rw [crawl, dif_pos (by omega : i < q.length)]
  | succ f ih =>
    intro q i coll hlen hmem
    have hi : i < q.length := by omega
    rw [crawl, dif_pos hi]
    dsimp only
    have hqi := hmem q[i] (List.getElem_mem hi)
    have hone : (cycChildren q[i]).length = 1 := by
      rcases hqi with h | h <;> simp [cycChildren, h]
    have hsub : ∀ y ∈ cycChildren q[i], y = 0 ∨ y = 1 := by
      rcases hqi with h | h <;> intro y hy <;> simp [cycChildren, h] at hy <;> simp [hy]
    apply ih
    · simp only [List.length_append]
      omega
    · intro x hx
      rcases List.mem_append.mp hx with h | h
      · exact hmem x h
      · exact hsub x h

/-- C6 counterexample: on the circular model, the queue loop of the
package-tree builder never terminates (no amount of fuel makes it
finish), and after the first two iterations module 0 is already back in
the queue to be visited a second time. -/
theorem package_tree_cycle_counterexample :
    (¬ ∃ fuel g, package_tree_graph mCyc fuel [0] (fun _ => none) none none [] = some g) ∧
    ([0] ++ mCyc.submodules 0) ++ mCyc.submodules 1 = [0, 1, 0] := by
  constructor
  · intro h
    obtain ⟨fuel, g, hg⟩ := h
    rw [package_tree_graph] at hg
    have hsm : mCyc.submodules = cycChildren := rfl
    rw [hsm, crawl_cyc_diverges fuel [0] 0 (insertAll [] [0]) (by decide) (by decide)] at hg
    exact absurd hg (by simp)
  · decide

/-- Total number of dequeue steps an entity will cause, computed to a
given recursion depth: itself plus, recursively, all entities it
enqueues. -/
def tcount {α : Type} (children : α → List α) : Nat → α → Nat
  | 0, _ => 1
  | f+1, x => 1 + ((children x).map (tcount children f)).sum

theorem children_nil_of_rank_zero {α : Type} (children : α → List α) (ρ : α → Nat)
    (hρ : ∀ x, ∀ y ∈ children x, ρ y < ρ x) (x : α) (hx : ρ x = 0) :
    children x = [] := by
  cases hc : children x with
  | nil => rfl
  | cons y ys =>
    have := hρ x y (by rw [hc]; exact List.mem_cons_self _ _)
    omega

theorem tcount_stable {α : Type} (children : α → List α) (ρ : α → Nat)
    (hρ : ∀ x, ∀ y ∈ children x, ρ y < ρ x) :
    ∀ (f g : Nat) (x : α), ρ x ≤ f → ρ x ≤ g →
    tcount children f x = tcount children g x := by
  intro f
  induction f with
  | zero =>
    intro g x hf hg
    have hc := children_nil_of_rank_zero children ρ hρ x (by omega)
    cases g with
    | zero => rfl
    | succ g2 => simp [tcount, hc]
  | succ f2 ih =>
    intro g x hf hg
    cases g with
    | zero =>
      have hc := children_nil_of_rank_zero children ρ hρ x (by omega)
      simp [tcount, hc]
    | succ g2 =>
      rw [tcount, tcount]
      congr 1
      apply congrArg List.sum
      apply List.map_congr_left
      intro y hy
      have := hρ x y hy
      exact ih g2 y (by omega) (by omega)

/-- The work caused by all pending entities of a list. -/
def sumT {α : Type} (children : α → List α) (ρ : α → Nat) (l : List α) : Nat :=
  (l.map (fun x => tcount children (ρ x) x)).sum

theorem tcount_pos {α : Type} (children : α → List α) (f : Nat) (x : α) :
    1 ≤ tcount children f x := by
  cases f with
  | zero => exact Nat.le_refl 1
  | succ f2 => rw [tcount]; omega

theorem tcount_unfold {α : Type} (children : α → List α) (ρ : α → Nat)
    (hρ : ∀ x, ∀ y ∈ children x, ρ y < ρ x) (x : α) :
    tcount children (ρ x) x = 1 + sumT children ρ (children x) := by
  cases hρx : ρ x with
  | zero =>
    have hc := children_nil_of_rank_zero children ρ hρ x hρx
    simp [tcount, sumT, hc]
  | succ k =>
    rw [tcount]
    congr 1
    rw [sumT]
    apply congrArg List.sum
    apply List.map_congr_left
    intro y hy
    have h1 : ρ y < ρ x := hρ x y hy
    exact tcount_stable children ρ hρ k (ρ y) y (by omega) (Nat.le_refl _)

theorem crawl_terminates_of_ranked {α : Type} [DecidableEq α] (children : α → List α)
    (ρ : α → Nat) (hρ : ∀ x, ∀ y ∈ children x, ρ y < ρ x) :
    ∀ (F : Nat) (q : List α) (i : Nat) (coll : List α),
    sumT children ρ (q.drop i) ≤ F →
    ∃ res, crawl children F q i coll = some res := by
  intro F
  induction F with
  | zero =>
    intro q i coll hF
    rw [crawl]
    by_cases h : i < q.length
    · exfalso
      have hd := List.drop_eq_getElem_cons h
      rw [hd, sumT, List.map_cons, List.sum_cons] at hF
      have := tcount_pos children (ρ q[i]) q[i]
      omega
    · rw [dif_neg h]
      exact ⟨coll, rfl⟩
  | succ F2 ih =>
    intro q i coll hF
    rw [crawl]
    by_cases h : i < q.length
    · rw [dif_pos h]
      dsimp only
      apply ih
      have hdrop : (q ++ children q[i]).drop (i+1) = q.drop (i+1) ++ children q[i] :=
        List.drop_append_of_le_length (by omega)
      have hsplit := List.drop_eq_getElem_cons h
      rw [hsplit, sumT, List.map_cons, List.sum_cons] at hF
      rw [tcount_unfold children ρ hρ q[i]] at hF
      rw [hdrop]
      simp only [sumT, List.map_append, List.sum_append] at hF ⊢
      omega
    · rw [dif_neg h]
      exact ⟨coll, rfl⟩

theorem insertAll_nodup {α : Type} [DecidableEq α] (xs : List α) :
    ∀ acc : List α, acc.Nodup → (insertAll acc xs).Nodup := by
  induction xs with
  | nil => intro acc h; exact h
  | cons x xs ih =>
    intro acc h
    rw [insertAll, List.foldl_cons]
    exact ih (insertNew acc x) (nodup_insertNew acc x h)

theorem crawl_nodup {α : Type} [DecidableEq α] (children : α → List α) :
    ∀ (fuel : Nat) (q : List α) (i : Nat) (coll res : List α),
    coll.Nodup → crawl children fuel q i coll = some res → res.Nodup := by
  intro fuel
  induction fuel with
  | zero =>
    intro q i coll res hc h
    rw [crawl] at h
    by_cases hi : i < q.length
    · rw [dif_pos hi] at h
      exact absurd h (by simp)
    · rw [dif_neg hi] at h
      have : coll = res := by simpa using h
      rw [← this]
      exact hc
  | succ f ih =>
    intro q i coll res hc h
    rw [crawl] at h
    by_cases hi : i < q.length
    · rw [dif_pos hi] at h
      dsimp only at h
      exact ih _ _ _ res (insertAll_nodup _ coll hc) h
    · rw [dif_neg hi] at h
      have : coll = res := by simpa using h
      rw [← this]
      exact hc

theorem mem_insertAll {α : Type} [DecidableEq α] (xs : List α) :
    ∀ (acc : List α) (a : α), a ∈ insertAll acc xs ↔ a ∈ acc ∨ a ∈ xs := by
  induction xs with
  | nil =>
    intro acc a
    simp [insertAll]
  | cons x xs ih =>
    intro acc a
    rw [insertAll, List.foldl_cons]
    have h1 := ih (insertNew acc x) a
    rw [insertAll] at h1
    rw [h1, mem_insertNew]
    simp only [List.mem_cons]
    tauto

theorem crawl_closed {α : Type} [DecidableEq α] (children : α → List α) :
    ∀ (fuel : Nat) (q : List α) (i : Nat) (coll res : List α),
    crawl children fuel q i coll = some res →
    (∀ x ∈ coll, x ∈ q) →
    (∀ j (hj : j < q.length), j < i → ∀ y ∈ children q[j], y ∈ coll) →
    (∀ x ∈ coll, x ∈ res) ∧ (∀ x ∈ res, ∀ y ∈ children x, y ∈ res) := by
  intro fuel
  induction fuel with
  | zero =>
    intro q i coll res h hq hproc
    rw [crawl] at h
    by_cases hi : i < q.length
    · rw [dif_pos hi] at h
      exact absurd h (by simp)
    · rw [dif_neg hi] at h
      have hcr : coll = res := by simpa using h
      subst hcr
      refine ⟨fun x hx => hx, ?_⟩
      intro x hx y hy
      obtain ⟨j, hj, hjx⟩ := List.mem_iff_getElem.mp (hq x hx)
      exact hproc j hj (by omega) y (by rw [hjx]; exact hy)
  | succ f ih =>
    intro q i coll res h hq hproc
    rw [crawl] at h
    by_cases hi : i < q.length
    · rw [dif_pos hi] at h
      dsimp only at h
      have hq2 : ∀ x ∈ insertAll coll (children q[i]), x ∈ q ++ children q[i] := by
        intro x hx
        rcases (mem_insertAll _ coll x).mp hx with h2 | h2
        · exact List.mem_append_left _ (hq x h2)
        · exact List.mem_append_right _ h2
      have hproc2 : ∀ j (hj : j < (q ++ children q[i]).length), j < i + 1 →
          ∀ y ∈ children (q ++ children q[i])[j], y ∈ insertAll coll (children q[i]) := by
        intro j hj hji y hy
        have hjq : j < q.length := by omega
        rw [List.getElem_append_left hjq] at hy
        by_cases hji2 : j < i
        · exact (mem_insertAll _ coll y).mpr (Or.inl (hproc j hjq hji2 y hy))
        · have : j = i := by omega
          subst this
          exact (mem_insertAll _ coll y).mpr (Or.inr hy)
      have happ := ih _ _ _ res h hq2 hproc2
      refine ⟨?_, happ.2⟩
      intro x hx
      exact happ.1 x ((mem_insertAll _ coll x).mpr (Or.inl hx))
    · rw [dif_neg hi] at h
      have hcr : coll = res := by simpa using h
      subst hcr
      refine ⟨fun x hx => hx, ?_⟩
      intro x hx y hy
      obtain ⟨j, hj, hjx⟩ := List.mem_iff_getElem.mp (hq x hx)
      exact hproc j hj (by omega) y (by rw [hjx]; exact hy)

theorem mkNodePairs_keys {α : Type} [DecidableEq α] (m : ApiModel α)
    (linker : α → Option String) (context : Option α) :
    ∀ (vs : List α) (nid : Nat),
    (mkNodePairs m linker context vs nid).map Prod.fst = vs := by
  intro vs
  induction vs with
  | nil => intro nid; rfl
  | cons v vs ih =>
    intro nid
    rw [mkNodePairs, List.map_cons, ih (nid + 1)]

theorem lookupVal_isSome_of_mem_keys {α : Type} [DecidableEq α]
    (pairs : List (α × DotGraphNode)) (k : α) (hk : k ∈ pairs.map Prod.fst) :
    ∃ n, lookupVal pairs k = some n := by
  rw [lookupVal]
  cases hf : pairs.reverse.find? (fun p => p.1 = k) with
  | some p => exact ⟨p.2, rfl⟩
  | none =>
    exfalso
    obtain ⟨p, hp, hpk⟩ := List.mem_map.mp hk
    have h2 := (List.find?_eq_none.mp hf) p (List.mem_reverse.mpr hp)
    simp [hpk] at h2

theorem mem_allRelPairs {α : Type} (children : α → List α) :
    ∀ (mods : List α) (p : α × α), p ∈ allRelPairs children mods →
    p.1 ∈ mods ∧ p.2 ∈ children p.1 := by
  intro mods
  induction mods with
  | nil =>
    intro p hp
    cases hp
  | cons mo rest ih =>
    intro p hp
    rw [allRelPairs, List.foldr_cons] at hp
    rcases List.mem_append.mp hp with h | h
    · obtain ⟨sub, hsub, rfl⟩ := List.mem_map.mp h
      exact ⟨List.mem_cons_self _ _, hsub⟩
    · have := ih p h
      exact ⟨List.mem_cons_of_mem _ this.1, this.2⟩

theorem edgesFor_some {α : Type} [DecidableEq α] (pairs : List (α × DotGraphNode)) :
    ∀ (rels : List (α × α)),
    (∀ p ∈ rels, (∃ n, lookupVal pairs p.1 = some n) ∧ (∃ n, lookupVal pairs p.2 = some n)) →
    ∃ es, edgesFor pairs rels = some es := by
  intro rels
  induction rels with
  | nil => intro _; exact ⟨[], rfl⟩
  | cons p rest ih =>
    intro h
    obtain ⟨⟨n1, h1⟩, ⟨n2, h2⟩⟩ := h p (List.mem_cons_self _ _)
    obtain ⟨es, hes⟩ := ih (fun p2 hp2 => h p2 (List.mem_cons_of_mem _ hp2))
    have hcons : edgesFor pairs (p :: rest) =
        (match lookupVal pairs p.1, lookupVal pairs p.2, edgesFor pairs rest with
        | some a, some b, some es =>
          some ({ start := a, stop := b, attribs := ([] : List (String × String)) } :: es)
        | _, _, _ => none) := rfl
    rw [hcons, h1, h2, hes]
    exact ⟨_, rfl⟩

theorem edges_exist_for_collected {α : Type} [DecidableEq α] (m : ApiModel α)
    (children : α → List α) (linker : α → Option String) (context : Option α)
    (res : List α) (hclosed : ∀ x ∈ res, ∀ y ∈ children x, y ∈ res) :
    ∃ es, edgesFor (add_valdoc_nodes m linker context res 0).1
      (allRelPairs children res) = some es := by
  apply edgesFor_some
  intro p hp
  obtain ⟨h1, h2⟩ := mem_allRelPairs children res p hp
  have hkeys : (add_valdoc_nodes m linker context res 0).1.map Prod.fst =
      sortByName m.canonicalName res :=
    mkNodePairs_keys m linker context (sortByName m.canonicalName res) 0
  constructor
  · apply lookupVal_isSome_of_mem_keys
    rw [hkeys]
    exact (List.perm_insertionSort _ res).mem_iff.mpr h1
  · apply lookupVal_isSome_of_mem_keys
    rw [hkeys]
    exact (List.perm_insertionSort _ res).mem_iff.mpr (hclosed p.1 h1 p.2 h2)

theorem mkNodePairs_length {α : Type} [DecidableEq α] (m : ApiModel α)
    (linker : α → Option String) (context : Option α) (vs : List α) (nid : Nat) :
    (mkNodePairs m linker context vs nid).length = vs.length := by
  have h2 := congrArg List.length (mkNodePairs_keys m linker context vs nid)
  rw [List.length_map] at h2
  exact h2

/-- C6 amended, first half (package trees): on an object model whose
submodule relationship admits a rank function (is acyclic), the queue
loop terminates with some fuel; each entity appears exactly once in the
collected module set even when several parents reference it, the set is
closed under submodules, and the builder creates exactly one node per
collected entity. -/
theorem package_tree_terminates_on_ranked :
    ∀ {α : Type} [inst : DecidableEq α] (m : ApiModel α) (ρ : α → Nat)
    (linker : α → Option String) (context : Option α) (dir : Option String)
    (issued : List String) (roots : List α),
    (∀ x, ∀ y ∈ m.submodules x, ρ y < ρ x) →
    ∃ fuel res g,
      crawl m.submodules fuel roots 0 (insertAll [] roots) = some res ∧
      res.Nodup ∧
      (∀ x ∈ res, ∀ y ∈ m.submodules x, y ∈ res) ∧
      package_tree_graph m fuel roots linker context dir issued = some g ∧
      g.nodes.length = res.length := by
  intro α inst m ρ linker context dir issued roots hρ
  obtain ⟨res, hres⟩ := crawl_terminates_of_ranked m.submodules ρ hρ
    (sumT m.submodules ρ roots) roots 0 (insertAll [] roots)
    (by rw [List.drop_zero])
  have hnodup := crawl_nodup m.submodules _ roots 0 _ res
    (insertAll_nodup roots [] List.nodup_nil) hres
  have hinit1 : ∀ x ∈ insertAll [] roots, x ∈ roots := by
    intro x hx
    rcases (mem_insertAll roots [] x).mp hx with h | h
    · cases h
    · exact h
  have hinit2 : ∀ j (hj : j < roots.length), j < 0 →
      ∀ y ∈ m.submodules roots[j], y ∈ insertAll [] roots := by
    intro j hj hj0
    omega
  have hclosed := (crawl_closed m.submodules _ roots 0 _ res hres hinit1 hinit2).2
  obtain ⟨es, hes⟩ := edges_exist_for_collected m m.submodules linker context res hclosed
  cases hb : package_tree_graph m (sumT m.submodules ρ roots) roots linker context dir issued with
  | none =>
    exfalso
    rw [package_tree_graph, hres] at hb
    dsimp only at hb
    rw [hes] at hb
    exact absurd hb (by simp)
  | some g =>
    refine ⟨_, res, g, hres, hnodup, hclosed, hb, ?_⟩
    rw [package_tree_graph, hres] at hb
    dsimp only at hb
    rw [hes] at hb
    dsimp only at hb
    have hg := Option.some.inj hb
    rw [← hg]
    dsimp only
    have hnp : (add_valdoc_nodes m linker context res 0).1 =
        mkNodePairs m linker context (sortByName m.canonicalName res) 0 := rfl
    rw [List.length_map, hnp, mkNodePairs_length]
    exact (List.perm_insertionSort _ res).length_eq

theorem class_tree_terminates_on_ranked :
    ∀ {α : Type} [inst : DecidableEq α] (m : ApiModel α) (ρ : α → Nat)
    (linker : α → Option String) (context : Option α) (dir : Option String)
    (issued : List String) (roots : List α),
    (∀ x, ∀ y ∈ m.subclasses x, ρ y < ρ x) →
    ∃ fuel res g,
      crawl m.subclasses fuel roots 0 (insertAll [] roots) = some res ∧
      res.Nodup ∧
      (∀ x ∈ res, ∀ y ∈ m.subclasses x, y ∈ res) ∧
      class_tree_graph m fuel roots linker context dir issued = some g ∧
      g.nodes.length = res.length := by
  intro α inst m ρ linker context dir issued roots hρ
  obtain ⟨res, hres⟩ := crawl_terminates_of_ranked m.subclasses ρ hρ
    (sumT m.subclasses ρ roots) roots 0 (insertAll [] roots)
    (by rw [List.drop_zero])
  have hnodup := crawl_nodup m.subclasses _ roots 0 _ res
    (insertAll_nodup roots [] List.nodup_nil) hres
  have hinit1 : ∀ x ∈ insertAll [] roots, x ∈ roots := by
    intro x hx
    rcases (mem_insertAll roots [] x).mp hx with h | h
    · cases h
    · exact h
  have hinit2 : ∀ j (hj : j < roots.length), j < 0 →
      ∀ y ∈ m.subclasses roots[j], y ∈ insertAll [] roots := by
    intro j hj hj0
    omega
  have hclosed := (crawl_closed m.subclasses _ roots 0 _ res hres hinit1 hinit2).2
  obtain ⟨es, hes⟩ := edges_exist_for_collected m m.subclasses linker context res hclosed
  cases hb : class_tree_graph m (sumT m.subclasses ρ roots) roots linker context dir issued with
  | none =>
    exfalso
    rw [class_tree_graph, hres] at hb
    dsimp only at hb
    rw [hes] at hb
    exact absurd hb (by simp)
  | some g =>
    refine ⟨_, res, g, hres, hnodup, hclosed, hb, ?_⟩
    rw [class_tree_graph, hres] at hb
    dsimp only at hb
    rw [hes] at hb
    dsimp only at hb
    have hg := Option.some.inj hb
    rw [← hg]
    dsimp only
    have hnp : (add_valdoc_nodes m linker context res 0).1 =
        mkNodePairs m linker context (sortByName m.canonicalName res) 0 := rfl
    rw [List.length_map, hnp, mkNodePairs_length]
    exact (List.perm_insertionSort _ res).length_eq

/-- C6 amended: the queue loops of the package-tree and class-tree
builders terminate when the child relationship admits a rank function
(is acyclic) — the counterexample shows they diverge on a cycle, since
the queue is extended unconditionally; an entity reachable through
several parents can be dequeued once per path, but the collected set
holds each entity exactly once, is closed under the child relation, and
the builder creates exactly one Graph Node per distinct collected
entity.  (The import-graph builder performs no traversal at all.) -/
theorem builders_one_node_per_entity_on_acyclic_models :
    ∀ {α : Type} [inst : DecidableEq α] (m : ApiModel α) (ρPkg ρCls : α → Nat)
    (linker : α → Option String) (context : Option α) (dir : Option String)
    (issued : List String) (roots : List α),
    (∀ x, ∀ y ∈ m.submodules x, ρPkg y < ρPkg x) →
    (∀ x, ∀ y ∈ m.subclasses x, ρCls y < ρCls x) →
    (∃ fuel res g,
      crawl m.submodules fuel roots 0 (insertAll [] roots) = some res ∧
      res.Nodup ∧
      (∀ x ∈ res, ∀ y ∈ m.submodules x, y ∈ res) ∧
      package_tree_graph m fuel roots linker context dir issued = some g ∧
      g.nodes.length = res.length) ∧
    (∃ fuel res g,
      crawl m.subclasses fuel roots 0 (insertAll [] roots) = some res ∧
      res.Nodup ∧
      (∀ x ∈ res, ∀ y ∈ m.subclasses x, y ∈ res) ∧
      class_tree_graph m fuel roots linker context dir issued = some g ∧
      g.nodes.length = res.length) := by
  intro α inst m ρPkg ρCls linker context dir issued roots h1 h2
  exact ⟨package_tree_terminates_on_ranked m ρPkg linker context dir issued roots h1,
    class_tree_terminates_on_ranked m ρCls linker context dir issued roots h2⟩

/-- Witness for the amended C6 theorem at a concrete acyclic model. -/
theorem builders_one_node_per_entity_witness :
    (∃ fuel res g,
      crawl mUnit.submodules fuel [()] 0 (insertAll [] [()]) = some res ∧
      res.Nodup ∧
      (∀ x ∈ res, ∀ y ∈ mUnit.submodules x, y ∈ res) ∧
      package_tree_graph mUnit fuel [()] (fun _ => none) none none [] = some g ∧
      g.nodes.length = res.length) ∧
    (∃ fuel res g,
      crawl mUnit.subclasses fuel [()] 0 (insertAll [] [()]) = some res ∧
      res.Nodup ∧
      (∀ x ∈ res, ∀ y ∈ mUnit.subclasses x, y ∈ res) ∧
      class_tree_graph mUnit fuel [()] (fun _ => none) none none [] = some g ∧
      g.nodes.length = res.length) :=
  builders_one_node_per_entity_on_acyclic_models mUnit (fun _ => 0) (fun _ => 0)
    (fun _ => none) none none [] [()]
    (by intro x y hy; simp [mUnit] at hy)
    (by intro x y hy; simp [mUnit] at hy)
